import Mathlib

/-!
Verification development for the per-cell computation core of a
spreadsheet-like data grid (`cell.h` / `cell.cpp`).

The embedding models:
  * `Position`, `CellValue`, the content variant `Impl`
    (`EmptyImpl` / `TextImpl` / `FormulaImpl`), and `Cell`;
  * the sheet as an association list `Sheet` keyed by `Position`, accessed
    only through `Sheet.GetCell` / `Sheet.update` (the collaborator's
    authoritative cell table);
  * the five operations of `cell.cpp`: `Cell.ClearCaches`,
    `Cell.EraseEdges`, `Cell.CheckCircularError`, `Cell.AddEdges`,
    `Cell.Set`, plus the read accessors.

C++ recursion is modelled with an explicit fuel argument; running out of
fuel yields a distinguished `fuelOut` outcome, while an undefined-behaviour
null dereference in the source is a distinguished `crash` outcome, so the
two are never conflated.  Machine `double`s of the formula collaborator are
modelled with `Nat` (only identity of values matters to the claims, never
float arithmetic).  The formula parser/evaluator and the sheet container
live outside `cell.cpp`; where an operation delegates to them, the
definition carries a `Modelled from the spec:` note.
-/

/-- Coordinate of a cell (collaborator type; structural equality and
hashing only). -/
structure Position where
  row : Int
  col : Int
deriving DecidableEq, Repr

/-- `Cell::Value`: tagged union of text, number and formula error.
Numbers are modelled with `Nat` in place of `double`. -/
inductive CellValue where
  | str (s : String)
  | num (n : Nat)
  | err
deriving DecidableEq, Repr

/-- Modelled from the spec: the formula collaborator object
(`FormulaInterface`, not under `src/`): an ordered reference list
(`GetReferencedCells`), a canonical expression string (`GetExpression`)
and a memoized last evaluation result (`HasCache` / `ClearCache`). -/
structure FormulaObj where
  refs : List Position
  expr : String
  cache : Option CellValue
deriving DecidableEq, Repr

/-- Modelled from the spec: the reserved formula marker character
(`FORMULA_SIGN` of `common.h`). -/
def FORMULA_SIGN : Char := '='

/-- Modelled from the spec: the reserved escape marker character
(`ESCAPE_SIGN` of `common.h`, an apostrophe). -/
def ESCAPE_SIGN : Char := Char.ofNat 39

/-- The content variant `detail::Impl`:
`EmptyImpl` / `TextImpl` / `FormulaImpl`. -/
inductive Impl where
  | empty
  | text (t : String)
  | formula (f : FormulaObj)
deriving DecidableEq, Repr

/-- `Impl::GetText` of each variant: empty string, the raw stored text, or
the formula marker followed by the canonical expression. -/
def Impl.GetText : Impl → String
  | .empty => ""
  | .text t => t
  | .formula f => String.mk [FORMULA_SIGN] ++ f.expr

/-- `Impl::GetReferencedCells`: empty for `EmptyImpl`/`TextImpl`, the
formula's reference list for `FormulaImpl`. -/
def Impl.GetReferencedCells : Impl → List Position
  | .empty => []
  | .text _ => []
  | .formula f => f.refs

/-- `TextImpl::GetValue`: strips a single leading escape marker if
present, else returns the stored text. -/
def TextImpl.GetValue (t : String) : CellValue :=
  match t.data with
  | c :: cs => if c = ESCAPE_SIGN then .str (String.mk cs) else .str t
  | [] => .str t

/-- `EmptyImpl::GetValue`: the empty string. -/
def EmptyImpl.GetValue : CellValue := .str ""

/-- A `Cell`: its content (null until the first `Set`, as in the
constructor `Cell::Cell`), its `referring_cells_` and its
`referenced_cells_`.  The two unordered sets are modelled as
duplicate-free lists. -/
structure Cell where
  impl : Option Impl
  referring : List Position
  referenced : List Position
deriving DecidableEq, Repr

/-- A freshly constructed `Cell` (`Cell::Cell`): no content object, empty
edge sets. -/
def freshCell : Cell :=
  { impl := none, referring := [], referenced := [] }

/-- The sheet collaborator's cell table, keyed by position.  Lookup and
update always act on the first binding of a key. -/
abbrev Sheet := List (Position × Cell)

/-- `SheetInterface::GetCell`: the cell at a position, or absent. -/
def Sheet.GetCell : Sheet → Position → Option Cell
  | [], _ => none
  | (q, c) :: rest, p => if q = p then some c else Sheet.GetCell rest p

/-- Replace the cell stored at a position (no-op if the position is
absent). -/
def Sheet.update : Sheet → Position → Cell → Sheet
  | [], _, _ => []
  | (q, d) :: rest, p, c =>
      if q = p then (q, c) :: rest else (q, d) :: Sheet.update rest p c

/-- `unordered_set::insert` on the duplicate-free list model. -/
def insertPos (p : Position) (l : List Position) : List Position :=
  if p ∈ l then l else p :: l

/-- `unordered_set::erase` on the duplicate-free list model. -/
def erasePos (p : Position) (l : List Position) : List Position :=
  l.filter (fun q => decide (q ≠ p))

/-- Observation: the `referring_cells_` of the cell at a position
(empty if absent). -/
def Sheet.referringOf (σ : Sheet) (p : Position) : List Position :=
  ((σ.GetCell p).map Cell.referring).getD []

/-- Observation: the `referenced_cells_` of the cell at a position
(empty if absent). -/
def Sheet.referencedOf (σ : Sheet) (p : Position) : List Position :=
  ((σ.GetCell p).map Cell.referenced).getD []

/-- Observation: the content of the cell at a position. -/
def Sheet.implOf (σ : Sheet) (p : Position) : Option Impl :=
  (σ.GetCell p).bind Cell.impl

/-- Observation: the memoized formula cache of the cell at a position
(none for absent cells, null content, and non-formula content). -/
def Sheet.cacheOf (σ : Sheet) (p : Position) : Option CellValue :=
  match σ.implOf p with
  | some (.formula f) => f.cache
  | _ => none

/-- Observation: whether the cell at a position holds formula content with
a populated cache. -/
def Sheet.cachedAt (σ : Sheet) (p : Position) : Bool :=
  (σ.cacheOf p).isSome

/-- Outcome of the edge/cache maintenance passes: a new sheet state, an
undefined-behaviour null dereference of the source, or fuel exhaustion of
the model. -/
inductive EdgeResult where
  | ok (σ : Sheet)
  | crash
  | fuelOut
deriving DecidableEq, Repr

/-- Outcome of `Cell::CheckCircularError`: the final visited set, a thrown
`CircularDependencyException`, a null dereference, or fuel exhaustion. -/
inductive ChkResult where
  | ok (visited : List Position)
  | cyc
  | crash
  | fuelOut
deriving DecidableEq, Repr

/-- Outcome of `Cell::Set`: success, a thrown
`CircularDependencyException` together with the sheet state it leaves
behind, a null dereference, or fuel exhaustion. -/
inductive SetResult where
  | ok (σ : Sheet)
  | cyc (σ : Sheet)
  | crash
  | fuelOut
deriving DecidableEq, Repr

/-- `Cell::ClearCaches`: for each referring position, fetch its cell
(without a null check) and its formula content (without checking the
downcast); skip it if its cache is already empty, otherwise clear the
cache and recurse into that cell's own referring set. -/
def Cell.ClearCaches : Nat → Sheet → List Position → EdgeResult
  | 0, _, _ => .fuelOut
  | _ + 1, σ, [] => .ok σ
  | fuel + 1, σ, p :: rest =>
    match σ.GetCell p with
    | none => .crash
    | some c =>
      match c.impl with
      | some (.formula f) =>
        match f.cache with
        | none => Cell.ClearCaches fuel σ rest
        | some _ =>
          match Cell.ClearCaches fuel
              (σ.update p { c with impl := some (.formula { f with cache := none }) })
              c.referring with
          | .ok σ2 => Cell.ClearCaches fuel σ2 rest
          | e => e
      | _ => .crash

/-- The loop of `Cell::EraseEdges` over `referenced_cells_`: remove this
cell's position from each referenced cell's referring set, skipping
positions at which the sheet holds no cell. -/
def eraseReferredLoop (σ : Sheet) (p : Position) : List Position → Sheet
  | [] => σ
  | d :: rest =>
    match σ.GetCell d with
    | none => eraseReferredLoop σ p rest
    | some c =>
        eraseReferredLoop (σ.update d { c with referring := erasePos p c.referring }) p rest

/-- `Cell::EraseEdges`: first clear the caches of the referring cells,
then drop this cell from the referring set of every cell it references
(skipping absent ones), then clear its own referenced set. -/
def Cell.EraseEdges (fuel : Nat) (σ : Sheet) (p : Position) : EdgeResult :=
  match σ.GetCell p with
  | none => .crash
  | some c =>
    match Cell.ClearCaches fuel σ c.referring with
    | .ok σ1 =>
      let σ2 := eraseReferredLoop σ1 p c.referenced
      match σ2.GetCell p with
      | none => .crash
      | some c2 => .ok (σ2.update p { c2 with referenced := [] })
    | e => e

/-- `Cell::CheckCircularError`: depth-first traversal from the candidate
reference list following the referenced cells of committed content, with a
visited set; throws when it reaches the cell's own position, treats absent
positions as leaves. -/
def Cell.CheckCircularError :
    Nat → Sheet → Position → List Position → List Position → ChkResult
  | 0, _, _, _, _ => .fuelOut
  | fuel + 1, σ, P, refs, visited =>
    match refs with
    | [] => .ok visited
    | r :: rest =>
      if r ∈ visited then Cell.CheckCircularError fuel σ P rest visited
      else if r = P then .cyc
      else
        match σ.GetCell r with
        | none => Cell.CheckCircularError fuel σ P rest (r :: visited)
        | some c =>
          match c.impl with
          | none => .crash
          | some i =>
            match Cell.CheckCircularError fuel σ P i.GetReferencedCells (r :: visited) with
            | .ok visited2 => Cell.CheckCircularError fuel σ P rest visited2
            | e => e

/-- Modelled from the spec: the sheet collaborator's `SetCell` for an
absent position with empty text, as invoked by auto-vivification — a
fresh `Cell` is constructed and `Set("")` makes its content Empty with no
edges (§4.2 step 3, §6). -/
def Sheet.SetCellEmpty (σ : Sheet) (r : Position) : Sheet :=
  (r, { impl := some .empty, referring := [], referenced := [] }) :: σ

/-- `Cell::AddEdges`: for each position of the new reference list, create
an Empty cell there if none exists, insert the position into this cell's
referenced set, and insert this cell's position into that cell's referring
set. -/
def Cell.AddEdges (σ : Sheet) (p : Position) : List Position → Sheet
  | [] => σ
  | r :: rest =>
    let σ1 := if (σ.GetCell r).isSome then σ else σ.SetCellEmpty r
    let σ2 := match σ1.GetCell p with
      | some c => σ1.update p { c with referenced := insertPos r c.referenced }
      | none => σ1
    let σ3 := match σ2.GetCell r with
      | some c => σ2.update r { c with referring := insertPos p c.referring }
      | none => σ2
    Cell.AddEdges σ3 p rest

/-- Commit a new content object into the cell at a position
(`impl_ = std::move(...)` / `impl_ = std::make_unique<...>`). -/
def Cell.commitImpl (σ : Sheet) (p : Position) (i : Impl) : SetResult :=
  match σ.GetCell p with
  | some c => .ok (σ.update p { c with impl := some i })
  | none => .crash

/-- `Cell::Set`, parameterised by the external `ParseFormula` collaborator
(`parse e = (reference list, canonical expression)`): erase the old edges
first, then classify the text; a formula candidate is cycle-checked and,
when approved, its edges are added before its content is committed; the
thrown `CircularDependencyException` carries the sheet state it leaves
behind. -/
def Cell.Set (parse : String → List Position × String) (fuel : Nat)
    (σ : Sheet) (p : Position) (text : String) : SetResult :=
  match Cell.EraseEdges fuel σ p with
  | .crash => .crash
  | .fuelOut => .fuelOut
  | .ok σ1 =>
    match text.data with
    | [] => Cell.commitImpl σ1 p .empty
    | c :: cs =>
      if c = FORMULA_SIGN ∧ cs ≠ [] then
        let f : FormulaObj :=
          { refs := (parse (String.mk cs)).1, expr := (parse (String.mk cs)).2, cache := none }
        match Cell.CheckCircularError fuel σ1 p f.refs [] with
        | .cyc => .cyc σ1
        | .crash => .crash
        | .fuelOut => .fuelOut
        | .ok _ => Cell.commitImpl (Cell.AddEdges σ1 p f.refs) p (.formula f)
      else Cell.commitImpl σ1 p (.text text)

/-- Modelled from the spec: the sheet collaborator's `SetCell` — construct
a `Cell` at the position if none exists (with null content, as
`Cell::Cell` leaves it), then delegate to `Cell::Set` (§6). -/
def Sheet.SetCell (parse : String → List Position × String) (fuel : Nat)
    (σ : Sheet) (p : Position) (text : String) : SetResult :=
  let σ0 := if (σ.GetCell p).isSome then σ else (p, freshCell) :: σ
  Cell.Set parse fuel σ0 p text

/-- `Cell::GetText`: delegation to the content object; null content is a
null dereference. -/
def Cell.GetText (c : Cell) : Option String :=
  c.impl.map Impl.GetText

/-- `Cell::GetReferencedCells`: delegation to the content object; null
content is a null dereference. -/
def Cell.GetReferencedCells (c : Cell) : Option (List Position) :=
  c.impl.map Impl.GetReferencedCells

/-- Decimal digit value of a character, if any. -/
def digitVal (c : Char) : Option Nat :=
  if c = '0' then some 0 else if c = '1' then some 1
  else if c = '2' then some 2 else if c = '3' then some 3
  else if c = '4' then some 4 else if c = '5' then some 5
  else if c = '6' then some 6 else if c = '7' then some 7
  else if c = '8' then some 8 else if c = '9' then some 9
  else none

/-- Parse an unsigned decimal numeral. -/
def parseNatAux : List Char → Nat → Option Nat
  | [], acc => some acc
  | c :: cs, acc =>
    match digitVal c with
    | some d => parseNatAux cs (acc * 10 + d)
    | none => none

/-- Numeric reading of a string, or none when it is not a numeral. -/
def strToNat : String → Option Nat
  | s =>
    match s.data with
    | [] => none
    | l => parseNatAux l 0

/-- Conversion of a referenced cell's value to a number during formula
evaluation.  Modelled from the spec: non-numeric text evaluates to a
formula error, errors propagate (§7). -/
def toNumValue : CellValue → CellValue
  | .num n => .num n
  | .str s => match strToNat s with
    | some n => .num n
    | none => .err
  | .err => .err

/-- `Cell::GetValue` at a position.  The Empty and Text cases are the
source's `EmptyImpl::GetValue` / `TextImpl::GetValue`.  Modelled from the
spec: the formula collaborator's `Evaluate` for a single-cell-reference
expression — return the memoized result when present, otherwise resolve
the referenced cell through the sheet, memoize and return (§2, §6);
multi-reference expressions are outside the modelled fragment. -/
def Sheet.GetValue : Nat → Sheet → Position → Option (CellValue × Sheet)
  | 0, _, _ => none
  | fuel + 1, σ, p =>
    match σ.GetCell p with
    | none => none
    | some c =>
      match c.impl with
      | none => none
      | some .empty => some (EmptyImpl.GetValue, σ)
      | some (.text t) => some (TextImpl.GetValue t, σ)
      | some (.formula f) =>
        match f.cache with
        | some v => some (v, σ)
        | none =>
          match f.refs with
          | [q] =>
            match Sheet.GetValue fuel σ q with
            | none => none
            | some (v, σ1) =>
              let v1 := toNumValue v
              match σ1.GetCell p with
              | none => none
              | some c1 =>
                some (v1, σ1.update p
                  { c1 with impl := some (.formula { f with cache := some v1 }) })
          | _ => none

/-! ### Specification-side predicates -/

/-- The reference list of the content committed at a position: what
`CheckCircularError` follows via `ref_cell->GetReferencedCells()`.  Absent
positions are leaves. -/
def Sheet.contentRefs (σ : Sheet) (r : Position) : List Position :=
  match σ.implOf r with
  | some i => i.GetReferencedCells
  | none => []

/-- `Reaches σ P r`: position `P` is reachable from position `r` (in zero
or more steps) by following the referenced cells of the contents committed
in `σ`. -/
inductive Reaches (σ : Sheet) (P : Position) : Position → Prop
  | here : Reaches σ P P
  | step {r c} : c ∈ σ.contentRefs r → Reaches σ P c → Reaches σ P r

/-- Every cell stored in the sheet has been given a content object by some
`Set` call (no null `impl_`). -/
def Inited (σ : Sheet) : Prop :=
  ∀ e ∈ σ, (Prod.snd e).impl.isSome = true

instance : DecidablePred Inited := fun σ =>
  List.decidableBAll _ σ

/-- The graph-symmetry invariant: for every pair of cells (A, B) present
in the sheet, B is in A's referenced set iff A is in B's referring set. -/
def SymSheet (σ : Sheet) : Prop :=
  ∀ a b, (σ.GetCell a).isSome = true → (σ.GetCell b).isSome = true →
    (b ∈ σ.referencedOf a ↔ a ∈ σ.referringOf b)

/-- Both edge sets of every cell mention only positions at which the sheet
holds a cell. -/
def ClosedSheet (σ : Sheet) : Prop :=
  ∀ a, (∀ q ∈ σ.referencedOf a, (σ.GetCell q).isSome = true) ∧
    (∀ q ∈ σ.referringOf a, (σ.GetCell q).isSome = true)

/-- A chain of referring edges of `σ` from the seed set `S` to a position,
every cell along it (endpoints included) holding formula content with a
populated cache. -/
inductive CachedChain (σ : Sheet) (S : List Position) : Position → Prop
  | seed {s} : s ∈ S → σ.cachedAt s = true → CachedChain σ S s
  | step {x r} : CachedChain σ S x → r ∈ σ.referringOf x → σ.cachedAt r = true →
      CachedChain σ S r

/-- View of a content object with its memo cache dropped (used to state
that a pass changes nothing but caches). -/
def Impl.decache : Impl → Impl
  | .formula f => .formula { f with cache := none }
  | i => i

/-- View of a cell with its formula cache dropped. -/
def Cell.decache (c : Cell) : Cell :=
  { c with impl := c.impl.map Impl.decache }

/-- View of the cell at a position with its formula cache dropped. -/
def Sheet.decacheOf (σ : Sheet) (p : Position) : Option Cell :=
  (σ.GetCell p).map Cell.decache

/-- Insert every position of a list into a set (left to right), as the
loop of `Cell::AddEdges` does to `referenced_cells_`. -/
def addAll (refs : List Position) (l : List Position) : List Position :=
  refs.foldl (fun acc r => insertPos r acc) l

/-! ### Concrete scenario material -/

/-- Demo position A1. -/
def pA1 : Position := ⟨0, 0⟩
/-- Demo position B1. -/
def pB1 : Position := ⟨0, 1⟩
/-- Demo position C1. -/
def pC1 : Position := ⟨0, 2⟩

/-- A concrete `ParseFormula` collaborator for the scenarios: the
expressions `A1`, `B1`, `C1` are single cell references. -/
def demoParse (s : String) : List Position × String :=
  if s = "A1" then ([pA1], s)
  else if s = "B1" then ([pB1], s)
  else if s = "C1" then ([pC1], s)
  else ([], s)

/-- Sheet holding `A1 = "=B1"` with `B1` auto-vivified Empty (the state
`Sheet.SetCell demoParse 100 [] pA1 "=B1"` commits). -/
def sheetA : Sheet :=
  [(pB1, { impl := some .empty, referring := [pA1], referenced := [] }),
   (pA1, { impl := some (.formula { refs := [pB1], expr := "B1", cache := none }),
           referring := [], referenced := [pB1] })]

/-- The state `Cell::Set(A1, "=A1")` leaves behind when it throws on
`sheetA`: A1's referenced set and B1's referring set are already erased. -/
def sheetAcyc : Sheet :=
  [(pB1, { impl := some .empty, referring := [], referenced := [] }),
   (pA1, { impl := some (.formula { refs := [pB1], expr := "B1", cache := none }),
           referring := [], referenced := [] })]

/-- A sheet whose `A1` has a stale referring entry: position `B1` is held
in `A1.referring` but the sheet has no cell there. -/
def sheetStale : Sheet :=
  [(pA1, { impl := some (.text "1"), referring := [pB1], referenced := [] })]

/-- A sheet with a cache gap along the referring chain out of `A1`:
`B1` (a formula over `A1`) holds no cache while `C1` (a formula over `B1`)
holds one. -/
def sheetGap : Sheet :=
  [(pA1, { impl := some (.text "1"), referring := [pB1], referenced := [] }),
   (pB1, { impl := some (.formula { refs := [pA1], expr := "A1", cache := none }),
           referring := [pC1], referenced := [pA1] }),
   (pC1, { impl := some (.formula { refs := [pB1], expr := "B1", cache := some (.num 1) }),
           referring := [], referenced := [pB1] })]

/-- The state `Cell::Set(A1, "2")` commits on `sheetGap`: `C1`'s cache
survives the invalidation pass. -/
def sheetGapAfter : Sheet :=
  [(pA1, { impl := some (.text "2"), referring := [pB1], referenced := [] }),
   (pB1, { impl := some (.formula { refs := [pA1], expr := "A1", cache := none }),
           referring := [pC1], referenced := [pA1] }),
   (pC1, { impl := some (.formula { refs := [pB1], expr := "B1", cache := some (.num 1) }),
           referring := [], referenced := [pB1] })]

/-- Like `sheetGap` but with every formula cache along the referring chain
out of `A1` populated. -/
def sheetFull : Sheet :=
  [(pA1, { impl := some (.text "1"), referring := [pB1], referenced := [] }),
   (pB1, { impl := some (.formula { refs := [pA1], expr := "A1", cache := some (.num 1) }),
           referring := [pC1], referenced := [pA1] }),
   (pC1, { impl := some (.formula { refs := [pB1], expr := "B1", cache := some (.num 1) }),
           referring := [], referenced := [pB1] })]

/-- The state `Cell::Set(A1, "2")` commits on `sheetFull`: both caches of
the fully cached referring chain are cleared. -/
def sheetFullAfter : Sheet :=
  [(pA1, { impl := some (.text "2"), referring := [pB1], referenced := [] }),
   (pB1, { impl := some (.formula { refs := [pA1], expr := "A1", cache := none }),
           referring := [pC1], referenced := [pA1] }),
   (pC1, { impl := some (.formula { refs := [pB1], expr := "B1", cache := none }),
           referring := [], referenced := [pB1] })]

/-- A sheet whose `A1` holds a formula referencing position `B1` at which
the sheet no longer holds any cell (a stale referenced relationship). -/
def sheetStaleRef : Sheet :=
  [(pA1, { impl := some (.formula { refs := [pB1], expr := "B1", cache := none }),
           referring := [], referenced := [pB1] })]

/-- The end-to-end invalidation scenario of §8: build
`C1 = "1"`, `B1 = "=C1"`, `A1 = "=B1"`, read `A1` once, set `C1 = "42"`,
read `A1` again; observe the first value, whether the read cached `A1` and
`B1`, both caches after the second set, and the second value. -/
def c9Run : Option (CellValue × Bool × Bool × Option CellValue × Option CellValue × CellValue) :=
  match Sheet.SetCell demoParse 100 [] pC1 "1" with
  | .ok σ1 =>
    match Sheet.SetCell demoParse 100 σ1 pB1 "=C1" with
    | .ok σ2 =>
      match Sheet.SetCell demoParse 100 σ2 pA1 "=B1" with
      | .ok σ3 =>
        match Sheet.GetValue 100 σ3 pA1 with
        | some (v1, σ4) =>
          match Sheet.SetCell demoParse 100 σ4 pC1 "42" with
          | .ok σ5 =>
            match Sheet.GetValue 100 σ5 pA1 with
            | some (v2, _) =>
              some (v1, σ4.cachedAt pA1, σ4.cachedAt pB1,
                    σ5.cacheOf pA1, σ5.cacheOf pB1, v2)
            | none => none
          | _ => none
        | none => none
      | _ => none
    | _ => none
  | _ => none

/-! ## Basic lemmas on the cell table -/

theorem Sheet.getCell_update_self {p : Position} {d : Cell} :
    ∀ {σ : Sheet}, σ.GetCell p = some d → ∀ c, (σ.update p c).GetCell p = some c := by
  intro σ
  induction σ with
  | nil => intro h c; simp [Sheet.GetCell] at h
  | cons e rest ih =>
    obtain ⟨q, ec⟩ := e
    intro h c
    by_cases hq : q = p
    · subst hq
      simp [Sheet.update, Sheet.GetCell]
    · simp only [Sheet.GetCell, if_neg hq] at h
      simp only [Sheet.update, if_neg hq, Sheet.GetCell]
      exact ih h c

theorem Sheet.getCell_update_ne {p q : Position} (hq : q ≠ p) :
    ∀ (σ : Sheet) (c : Cell), (σ.update p c).GetCell q = σ.GetCell q := by
  intro σ
  induction σ with
  | nil => intro c; simp [Sheet.update]
  | cons e rest ih =>
    obtain ⟨a, ec⟩ := e
    intro c
    by_cases ha : a = p
    · subst ha
      simp only [Sheet.update, if_pos rfl, Sheet.GetCell]
      rw [if_neg (fun h => hq h.symm), if_neg (fun h => hq h.symm)]
    · simp only [Sheet.update, if_neg ha, Sheet.GetCell]
      by_cases haq : a = q
      · simp [haq]
      · simp only [if_neg haq]
        exact ih c

theorem Sheet.isSome_getCell_update (σ : Sheet) (p q : Position) (c : Cell) :
    ((σ.update p c).GetCell q).isSome = (σ.GetCell q).isSome := by
  induction σ with
  | nil => simp [Sheet.update]
  | cons e rest ih =>
    obtain ⟨a, ec⟩ := e
    by_cases ha : a = p
    · subst ha
      simp only [Sheet.update, if_pos rfl, Sheet.GetCell]
      by_cases haq : a = q <;> simp [haq]
    · simp only [Sheet.update, if_neg ha, Sheet.GetCell]
      by_cases haq : a = q <;> simp [haq, ih]

theorem Sheet.update_absent {p : Position} :
    ∀ {σ : Sheet}, σ.GetCell p = none → ∀ c, σ.update p c = σ := by
  intro σ
  induction σ with
  | nil => intro _ c; rfl
  | cons e rest ih =>
    obtain ⟨a, ec⟩ := e
    intro h c
    by_cases ha : a = p
    · subst ha; simp [Sheet.GetCell] at h
    · simp only [Sheet.GetCell, if_neg ha] at h
      simp only [Sheet.update, if_neg ha]
      rw [ih h c]

/-- `Cell::commitImpl` only replaces the content of the committed cell. -/
theorem Cell.commitImpl_ok {σ σ' : Sheet} {p : Position} {i : Impl}
    (h : Cell.commitImpl σ p i = .ok σ') :
    ∃ c, σ.GetCell p = some c ∧ σ' = σ.update p { c with impl := some i } := by
  unfold Cell.commitImpl at h
  cases hg : σ.GetCell p with
  | none => rw [hg] at h; exact absurd h (by simp)
  | some c =>
    rw [hg] at h
    exact ⟨c, rfl, by injection h with h; exact h.symm⟩

theorem Cell.commitImpl_implOf {σ σ' : Sheet} {p : Position} {i : Impl}
    (h : Cell.commitImpl σ p i = .ok σ') : σ'.implOf p = some i := by
  obtain ⟨c, hg, rfl⟩ := Cell.commitImpl_ok h
  simp [Sheet.implOf, Sheet.getCell_update_self hg]


/-! ## C1: a rejected circular `Set` does not leave the graph unchanged -/

/-- C1: the claim demands that a `Set` rejected for circular dependency
leave the cell's edge sets and every other cell's edges untouched; on the
concrete sheet `A1 = "=B1"`, calling `Set(A1, "=A1")` does raise the
circular-dependency failure, but it has already erased `A1.referenced` and
removed `A1` from `B1.referring`, because `Cell::Set` runs `EraseEdges`
before `CheckCircularError`. -/
theorem c1_rejected_set_erases_edges :
    Cell.Set demoParse 100 sheetA pA1 "=A1" = .cyc sheetAcyc ∧
    Sheet.referencedOf sheetA pA1 = [pB1] ∧
    Sheet.referringOf sheetA pB1 = [pA1] ∧
    Sheet.referencedOf sheetAcyc pA1 = [] ∧
    Sheet.referringOf sheetAcyc pB1 = [] := by decide

/-! ## C7: rendering contract of the content variants -/

/-- C7: `GetText` returns the empty string for Empty content, the raw
stored string for Text content, and the formula marker followed by the
canonical expression for Formula content; `GetValue` returns the empty
string for Empty content and, for Text content, the text with one leading
escape marker stripped when present. -/
theorem c7_rendering (t : String) (f : FormulaObj) :
    Impl.GetText .empty = "" ∧
    Impl.GetText (.text t) = t ∧
    Impl.GetText (.formula f) = FORMULA_SIGN.toString ++ f.expr ∧
    EmptyImpl.GetValue = .str "" ∧
    TextImpl.GetValue t = .str (if t.data.head? = some ESCAPE_SIGN then t.drop 1 else t) := by
  refine ⟨rfl, rfl, rfl, rfl, ?_⟩
  cases ht : t.data with
  | nil =>
    have : t = "" := by cases t; simp_all
    subst this; simp [TextImpl.GetValue]
  | cons c cs =>
    by_cases hc : c = ESCAPE_SIGN
    · subst hc
      simp [TextImpl.GetValue, ht, String.drop_eq]
    · simp [TextImpl.GetValue, ht, hc]

/-! ## C9: end-to-end transitive cache invalidation -/

/-- C9: with `A1 = "=B1"`, `B1 = "=C1"`, `C1 = "1"`, reading `A1` once
caches both `A1` and `B1`; setting `C1` to the numeric literal `"42"`
clears both caches transitively, and a subsequent read of `A1` returns the
new value 42 rather than the stale 1. -/
theorem c9_transitive_invalidation :
    c9Run = some (.num 1, true, true, none, none, .num 42) := by decide

/-! ## Set-model lemmas -/

theorem insertPos_mem {x r : Position} {l : List Position} :
    x ∈ insertPos r l ↔ x = r ∨ x ∈ l := by
  unfold insertPos
  by_cases h : r ∈ l
  · simp only [if_pos h]
    constructor
    · exact fun hx => Or.inr hx
    · rintro (rfl | hx)
      · exact h
      · exact hx
  · simp only [if_neg h, List.mem_cons]

theorem insertPos_idem (r : Position) (l : List Position) :
    insertPos r (insertPos r l) = insertPos r l := by
  unfold insertPos
  by_cases h : r ∈ l
  · simp [h]
  · simp [h]

theorem erasePos_mem {x r : Position} {l : List Position} :
    x ∈ erasePos r l ↔ x ∈ l ∧ x ≠ r := by
  simp [erasePos]

theorem erasePos_idem (r : Position) (l : List Position) :
    erasePos r (erasePos r l) = erasePos r l := by
  simp [erasePos, List.filter_filter]

/-! ## Cache-stripped view lemmas -/

theorem decache_referring {c c' : Cell} (h : c'.decache = c.decache) :
    c'.referring = c.referring := by
  have := congrArg Cell.referring h
  simpa [Cell.decache] using this

theorem decache_referenced {c c' : Cell} (h : c'.decache = c.decache) :
    c'.referenced = c.referenced := by
  have := congrArg Cell.referenced h
  simpa [Cell.decache] using this

theorem decacheOf_referringOf {σ σ' : Sheet} (h : ∀ q, σ'.decacheOf q = σ.decacheOf q)
    (q : Position) : σ'.referringOf q = σ.referringOf q := by
  have hq := h q
  unfold Sheet.decacheOf at hq
  unfold Sheet.referringOf
  cases hg' : σ'.GetCell q <;> cases hg : σ.GetCell q <;>
    rw [hg', hg] at hq <;> simp_all
  exact decache_referring hq

theorem decacheOf_referencedOf {σ σ' : Sheet} (h : ∀ q, σ'.decacheOf q = σ.decacheOf q)
    (q : Position) : σ'.referencedOf q = σ.referencedOf q := by
  have hq := h q
  unfold Sheet.decacheOf at hq
  unfold Sheet.referencedOf
  cases hg' : σ'.GetCell q <;> cases hg : σ.GetCell q <;>
    rw [hg', hg] at hq <;> simp_all
  exact decache_referenced hq

theorem decacheOf_isSome {σ σ' : Sheet} (h : ∀ q, σ'.decacheOf q = σ.decacheOf q)
    (q : Position) : (σ'.GetCell q).isSome = (σ.GetCell q).isSome := by
  have hq := h q
  unfold Sheet.decacheOf at hq
  cases hg' : σ'.GetCell q <;> cases hg : σ.GetCell q <;> rw [hg', hg] at hq <;> simp_all

theorem decacheOf_contentRefs {σ σ' : Sheet} (h : ∀ q, σ'.decacheOf q = σ.decacheOf q)
    (q : Position) : σ'.contentRefs q = σ.contentRefs q := by
  have hq := h q
  unfold Sheet.decacheOf at hq
  unfold Sheet.contentRefs Sheet.implOf
  cases hg' : σ'.GetCell q <;> cases hg : σ.GetCell q <;>
    rw [hg', hg] at hq <;> simp_all
  have := congrArg Cell.impl hq
  simp only [Cell.decache] at this
  rename_i c' c
  cases hi' : c'.impl <;> cases hi : c.impl <;> rw [hi', hi] at this <;> simp_all
  rename_i i' i
  cases i' <;> cases i <;> simp_all [Impl.decache, Impl.GetReferencedCells]

/-! ## Unfolding lemmas for `Cell::ClearCaches` -/

theorem cc_step_absent {σ : Sheet} {p : Position} (rest : List Position) (fuel : Nat)
    (hg : σ.GetCell p = none) :
    Cell.ClearCaches (fuel + 1) σ (p :: rest) = .crash := by
  simp only [Cell.ClearCaches]
  rw [hg]

theorem cc_step_noimpl {σ : Sheet} {p : Position} {c : Cell} (rest : List Position) (fuel : Nat)
    (hg : σ.GetCell p = some c) (hi : c.impl = none) :
    Cell.ClearCaches (fuel + 1) σ (p :: rest) = .crash := by
  simp only [Cell.ClearCaches]
  rw [hg]
  dsimp only
  rw [hi]

theorem cc_step_empty {σ : Sheet} {p : Position} {c : Cell} (rest : List Position) (fuel : Nat)
    (hg : σ.GetCell p = some c) (hi : c.impl = some .empty) :
    Cell.ClearCaches (fuel + 1) σ (p :: rest) = .crash := by
  simp only [Cell.ClearCaches]
  rw [hg]
  dsimp only
  rw [hi]

theorem cc_step_text {σ : Sheet} {p : Position} {c : Cell} {t : String}
    (rest : List Position) (fuel : Nat)
    (hg : σ.GetCell p = some c) (hi : c.impl = some (.text t)) :
    Cell.ClearCaches (fuel + 1) σ (p :: rest) = .crash := by
  simp only [Cell.ClearCaches]
  rw [hg]
  dsimp only
  rw [hi]

theorem cc_step_nocache {σ : Sheet} {p : Position} {c : Cell} {f : FormulaObj}
    (rest : List Position) (fuel : Nat)
    (hg : σ.GetCell p = some c) (hi : c.impl = some (.formula f)) (hc : f.cache = none) :
    Cell.ClearCaches (fuel + 1) σ (p :: rest) = Cell.ClearCaches fuel σ rest := by
  simp only [Cell.ClearCaches]
  rw [hg]
  dsimp only
  rw [hi]
  dsimp only
  rw [hc]

theorem cc_step_cache {σ : Sheet} {p : Position} {c : Cell} {f : FormulaObj} {v : CellValue}
    (rest : List Position) (fuel : Nat)
    (hg : σ.GetCell p = some c) (hi : c.impl = some (.formula f)) (hc : f.cache = some v) :
    Cell.ClearCaches (fuel + 1) σ (p :: rest) =
      match Cell.ClearCaches fuel
          (σ.update p { c with impl := some (.formula { f with cache := none }) })
          c.referring with
      | .ok σ2 => Cell.ClearCaches fuel σ2 rest
      | e => e := by
  simp only [Cell.ClearCaches]
  rw [hg]
  dsimp only
  rw [hi]
  dsimp only
  rw [hc]

/-- Inversion of a successful head step of `Cell::ClearCaches`. -/
theorem cc_cons_ok_inv {fuel : Nat} {σ σ' : Sheet} {p : Position} {rest : List Position}
    (h : Cell.ClearCaches (fuel + 1) σ (p :: rest) = .ok σ') :
    ∃ c f, σ.GetCell p = some c ∧ c.impl = some (.formula f) ∧
      ((f.cache = none ∧ Cell.ClearCaches fuel σ rest = .ok σ') ∨
       (∃ v σ2, f.cache = some v ∧
         Cell.ClearCaches fuel
           (σ.update p { c with impl := some (.formula { f with cache := none }) })
           c.referring = .ok σ2 ∧
         Cell.ClearCaches fuel σ2 rest = .ok σ')) := by
  cases hg : σ.GetCell p with
  | none => rw [cc_step_absent rest fuel hg] at h; exact absurd h (by simp)
  | some c =>
    cases hi : c.impl with
    | none => rw [cc_step_noimpl rest fuel hg hi] at h; exact absurd h (by simp)
    | some i =>
      cases i with
      | empty => rw [cc_step_empty rest fuel hg hi] at h; exact absurd h (by simp)
      | text t => rw [cc_step_text rest fuel hg hi] at h; exact absurd h (by simp)
      | formula f =>
        cases hc : f.cache with
        | none =>
          rw [cc_step_nocache rest fuel hg hi hc] at h
          exact ⟨c, f, rfl, hi, Or.inl ⟨hc, h⟩⟩
        | some v =>
          rw [cc_step_cache rest fuel hg hi hc] at h
          cases hrec : Cell.ClearCaches fuel
              (σ.update p { c with impl := some (.formula { f with cache := none }) })
              c.referring with
          | ok σ2 =>
            rw [hrec] at h
            exact ⟨c, f, rfl, hi, Or.inr ⟨v, σ2, hc, hrec, h⟩⟩
          | crash => rw [hrec] at h; exact absurd h (by simp)
          | fuelOut => rw [hrec] at h; exact absurd h (by simp)

/-! ## The cache-clearing pass changes nothing but caches -/

theorem clear_update_decacheOf {σ : Sheet} {p : Position} {c : Cell} {f : FormulaObj}
    (hg : σ.GetCell p = some c) (hi : c.impl = some (.formula f)) (q : Position) :
    (σ.update p { c with impl := some (.formula { f with cache := none }) }).decacheOf q
      = σ.decacheOf q := by
  by_cases hq : q = p
  · subst hq
    unfold Sheet.decacheOf
    rw [Sheet.getCell_update_self hg, hg]
    simp [Cell.decache, hi, Impl.decache]
  · unfold Sheet.decacheOf
    rw [Sheet.getCell_update_ne hq]

theorem clear_update_cachedAt {σ : Sheet} {p : Position} {c : Cell} {f : FormulaObj}
    (hg : σ.GetCell p = some c) (q : Position) :
    (σ.update p { c with impl := some (.formula { f with cache := none }) }).cachedAt q
      = if q = p then false else σ.cachedAt q := by
  by_cases hq : q = p
  · subst hq
    unfold Sheet.cachedAt Sheet.cacheOf Sheet.implOf
    rw [Sheet.getCell_update_self hg]
    simp
  · unfold Sheet.cachedAt Sheet.cacheOf Sheet.implOf
    rw [Sheet.getCell_update_ne hq]
    simp [hq]

theorem cachedAt_of_formula {σ : Sheet} {p : Position} {c : Cell} {f : FormulaObj}
    (hg : σ.GetCell p = some c) (hi : c.impl = some (.formula f)) :
    σ.cachedAt p = f.cache.isSome := by
  unfold Sheet.cachedAt Sheet.cacheOf Sheet.implOf
  rw [hg]
  simp [hi]

/-- `Cell::ClearCaches` preserves every cell's cache-stripped view: it
never touches edges, content kinds, expressions or the cell table's
domain. -/
theorem clearCaches_decache :
    ∀ {fuel : Nat} {S : List Position} {σ σ' : Sheet},
      Cell.ClearCaches fuel σ S = .ok σ' → ∀ q, σ'.decacheOf q = σ.decacheOf q := by
  intro fuel
  induction fuel with
  | zero => intro S σ σ' h; simp [Cell.ClearCaches] at h
  | succ fuel ih =>
    intro S σ σ' h
    cases S with
    | nil =>
      simp [Cell.ClearCaches] at h
      subst h; intro q; rfl
    | cons p rest =>
      obtain ⟨c, f, hg, hi, hbr⟩ := cc_cons_ok_inv h
      rcases hbr with ⟨_, htail⟩ | ⟨v, σ2, hc, hrec, htail⟩
      · exact ih htail
      · intro q
        rw [ih htail q, ih hrec q, clear_update_decacheOf hg hi q]

/-- `Cell::ClearCaches` never populates a cache. -/
theorem clearCaches_cached_mono :
    ∀ {fuel : Nat} {S : List Position} {σ σ' : Sheet},
      Cell.ClearCaches fuel σ S = .ok σ' →
      ∀ q, σ.cachedAt q = false → σ'.cachedAt q = false := by
  intro fuel
  induction fuel with
  | zero => intro S σ σ' h; simp [Cell.ClearCaches] at h
  | succ fuel ih =>
    intro S σ σ' h
    cases S with
    | nil =>
      simp [Cell.ClearCaches] at h
      subst h; intro q hq; exact hq
    | cons p rest =>
      obtain ⟨c, f, hg, hi, hbr⟩ := cc_cons_ok_inv h
      rcases hbr with ⟨_, htail⟩ | ⟨v, σ2, hc, hrec, htail⟩
      · exact ih htail
      · intro q hq
        refine ih htail q (ih hrec q ?_)
        rw [clear_update_cachedAt hg q]
        by_cases hqp : q = p <;> simp [hqp, hq]

/-- Every seed of a successful `Cell::ClearCaches` pass ends with an empty
cache. -/
theorem clearCaches_seeds_cleared :
    ∀ {fuel : Nat} {S : List Position} {σ σ' : Sheet},
      Cell.ClearCaches fuel σ S = .ok σ' →
      ∀ s ∈ S, σ'.cachedAt s = false := by
  intro fuel
  induction fuel with
  | zero => intro S σ σ' h; simp [Cell.ClearCaches] at h
  | succ fuel ih =>
    intro S σ σ' h
    cases S with
    | nil => intro s hs; exact absurd hs (List.not_mem_nil s)
    | cons p rest =>
      obtain ⟨c, f, hg, hi, hbr⟩ := cc_cons_ok_inv h
      intro s hs
      rcases List.mem_cons.mp hs with rfl | hs'
      · rcases hbr with ⟨hc, htail⟩ | ⟨v, σ2, hc, hrec, htail⟩
        · refine clearCaches_cached_mono htail s ?_
          rw [cachedAt_of_formula hg hi, hc]
          rfl
        · refine clearCaches_cached_mono htail s (clearCaches_cached_mono hrec s ?_)
          rw [clear_update_cachedAt hg s]
          simp
      · rcases hbr with ⟨hc, htail⟩ | ⟨v, σ2, hc, hrec, htail⟩
        · exact ih htail s hs'
        · exact ih htail s hs'

/-- If a successful `Cell::ClearCaches` pass cleared a cell, it also left
every cell of that cell's referring set with an empty cache. -/
theorem clearCaches_cleared_closed :
    ∀ {fuel : Nat} {S : List Position} {σ σ' : Sheet},
      Cell.ClearCaches fuel σ S = .ok σ' →
      ∀ x, σ.cachedAt x = true → σ'.cachedAt x = false →
        ∀ r ∈ σ.referringOf x, σ'.cachedAt r = false := by
  intro fuel
  induction fuel with
  | zero => intro S σ σ' h; simp [Cell.ClearCaches] at h
  | succ fuel ih =>
    intro S σ σ' h
    cases S with
    | nil =>
      simp [Cell.ClearCaches] at h
      subst h
      intro x hx hx'
      rw [hx] at hx'
      exact absurd hx' (by simp)
    | cons p rest =>
      obtain ⟨c, f, hg, hi, hbr⟩ := cc_cons_ok_inv h
      rcases hbr with ⟨hc, htail⟩ | ⟨v, σ2, hc, hrec, htail⟩
      · exact ih htail
      · intro x hx hx' r hr
        by_cases hxp : x = p
        · subst hxp
          have hrefs : σ.referringOf x = c.referring := by
            unfold Sheet.referringOf
            rw [hg]
            rfl
          rw [hrefs] at hr
          exact clearCaches_cached_mono htail r (clearCaches_seeds_cleared hrec r hr)
        · have hupd : (σ.update p
              { c with impl := some (.formula { f with cache := none }) }).cachedAt x = true := by
            rw [clear_update_cachedAt hg x, if_neg hxp]
            exact hx
          have hrefs : ∀ q, (σ.update p
              { c with impl := some (.formula { f with cache := none }) }).referringOf q
                = σ.referringOf q :=
            decacheOf_referringOf (fun q => clear_update_decacheOf hg hi q)
          cases hx2 : σ2.cachedAt x with
          | false =>
            have := ih hrec x hupd hx2 r (by rw [hrefs]; exact hr)
            exact clearCaches_cached_mono htail r this
          | true =>
            have hrefs2 : ∀ q, σ2.referringOf q = σ.referringOf q := by
              intro q
              rw [decacheOf_referringOf (clearCaches_decache hrec) q, hrefs q]
            exact ih htail x hx2 hx' r (by rw [hrefs2]; exact hr)

/-- Every node of a cached chain holds a populated cache. -/
theorem chain_cached {σ : Sheet} {S : List Position} {x : Position}
    (h : CachedChain σ S x) : σ.cachedAt x = true := by
  cases h <;> assumption

/-- A successful `Cell::ClearCaches` pass clears every cell reachable from
the seed set through a chain of cells whose caches are all populated. -/
theorem clearCaches_chain_cleared {fuel : Nat} {S : List Position} {σ σ' : Sheet}
    (h : Cell.ClearCaches fuel σ S = .ok σ') :
    ∀ x, CachedChain σ S x → σ'.cachedAt x = false := by
  intro x hx
  induction hx with
  | seed hs _ => exact clearCaches_seeds_cleared h _ hs
  | step hchain hr _ ih =>
    exact clearCaches_cleared_closed h _ (chain_cached hchain) ih _ hr

/-! ## The `EraseEdges` loop over `referenced_cells_` -/

/-- Exact effect of the `Cell::EraseEdges` loop: every cell at a position
of the list loses this cell's position from its referring set; absent
positions are skipped; nothing else changes. -/
theorem eraseReferredLoop_getCell :
    ∀ (ds : List Position) (σ : Sheet) (p q : Position),
      (eraseReferredLoop σ p ds).GetCell q =
        (σ.GetCell q).map
          (fun c => if q ∈ ds then { c with referring := erasePos p c.referring } else c) := by
  intro ds
  induction ds with
  | nil =>
    intro σ p q
    simp [eraseReferredLoop]
  | cons d rest ih =>
    intro σ p q
    show Sheet.GetCell
      (match σ.GetCell d with
       | none => eraseReferredLoop σ p rest
       | some c =>
           eraseReferredLoop (σ.update d { c with referring := erasePos p c.referring }) p rest)
      q = _
    cases hgd : σ.GetCell d with
    | none =>
      rw [ih]
      by_cases hq : q = d
      · subst hq
        rw [hgd]
        rfl
      · cases hgq : σ.GetCell q with
        | none => rfl
        | some c => simp [List.mem_cons, hq]
    | some c =>
      rw [ih]
      by_cases hq : q = d
      · subst hq
        rw [Sheet.getCell_update_self hgd, hgd]
        by_cases hrest : q ∈ rest
        · simp [hrest, erasePos_idem]
        · simp [hrest]
      · rw [Sheet.getCell_update_ne hq]
        cases hgq : σ.GetCell q with
        | none => rfl
        | some cq => simp [List.mem_cons, hq]

theorem eraseReferredLoop_isSome (ds : List Position) (σ : Sheet) (p q : Position) :
    ((eraseReferredLoop σ p ds).GetCell q).isSome = (σ.GetCell q).isSome := by
  rw [eraseReferredLoop_getCell]
  cases σ.GetCell q <;> rfl

theorem eraseReferredLoop_implOf (ds : List Position) (σ : Sheet) (p q : Position) :
    (eraseReferredLoop σ p ds).implOf q = σ.implOf q := by
  unfold Sheet.implOf
  rw [eraseReferredLoop_getCell]
  cases σ.GetCell q with
  | none => rfl
  | some c => by_cases hq : q ∈ ds <;> simp [hq]

theorem eraseReferredLoop_cachedAt (ds : List Position) (σ : Sheet) (p q : Position) :
    (eraseReferredLoop σ p ds).cachedAt q = σ.cachedAt q := by
  unfold Sheet.cachedAt Sheet.cacheOf
  rw [eraseReferredLoop_implOf]

theorem eraseReferredLoop_referencedOf (ds : List Position) (σ : Sheet) (p q : Position) :
    (eraseReferredLoop σ p ds).referencedOf q = σ.referencedOf q := by
  unfold Sheet.referencedOf
  rw [eraseReferredLoop_getCell]
  cases σ.GetCell q with
  | none => rfl
  | some c => by_cases hq : q ∈ ds <;> simp [hq]

theorem eraseReferredLoop_referringOf (ds : List Position) (σ : Sheet) (p q : Position) :
    (eraseReferredLoop σ p ds).referringOf q =
      if q ∈ ds then erasePos p (σ.referringOf q) else σ.referringOf q := by
  unfold Sheet.referringOf
  rw [eraseReferredLoop_getCell]
  cases σ.GetCell q with
  | none => by_cases hq : q ∈ ds <;> simp [hq, erasePos]
  | some c => by_cases hq : q ∈ ds <;> simp [hq]

/-! ## `Cell::EraseEdges`: inversion and success -/

theorem eraseEdges_ok_inv {fuel : Nat} {σ σ1 : Sheet} {p : Position}
    (h : Cell.EraseEdges fuel σ p = .ok σ1) :
    ∃ c σcc c2, σ.GetCell p = some c ∧
      Cell.ClearCaches fuel σ c.referring = .ok σcc ∧
      (eraseReferredLoop σcc p c.referenced).GetCell p = some c2 ∧
      σ1 = (eraseReferredLoop σcc p c.referenced).update p { c2 with referenced := [] } := by
  unfold Cell.EraseEdges at h
  cases hg : σ.GetCell p with
  | none => rw [hg] at h; exact absurd h (by simp)
  | some c =>
    rw [hg] at h
    dsimp only at h
    cases hcc : Cell.ClearCaches fuel σ c.referring with
    | crash => rw [hcc] at h; exact absurd h (by simp)
    | fuelOut => rw [hcc] at h; exact absurd h (by simp)
    | ok σcc =>
      rw [hcc] at h
      dsimp only at h
      cases hg2 : (eraseReferredLoop σcc p c.referenced).GetCell p with
      | none => rw [hg2] at h; exact absurd h (by simp)
      | some c2 =>
        rw [hg2] at h
        refine ⟨c, σcc, c2, rfl, hcc, hg2, ?_⟩
        injection h with h
        exact h.symm

theorem eraseEdges_ok_of {fuel : Nat} {σ σcc : Sheet} {p : Position} {c : Cell}
    (hg : σ.GetCell p = some c)
    (hcc : Cell.ClearCaches fuel σ c.referring = .ok σcc) :
    ∃ σ1, Cell.EraseEdges fuel σ p = .ok σ1 := by
  have hdom : ((eraseReferredLoop σcc p c.referenced).GetCell p).isSome = true := by
    rw [eraseReferredLoop_isSome, decacheOf_isSome (clearCaches_decache hcc) p, hg]
    rfl
  obtain ⟨c2, hg2⟩ := Option.isSome_iff_exists.mp hdom
  refine ⟨(eraseReferredLoop σcc p c.referenced).update p { c2 with referenced := [] }, ?_⟩
  unfold Cell.EraseEdges
  rw [hg]
  dsimp only
  rw [hcc]
  dsimp only
  rw [hg2]

theorem cachedAt_congr {σ σ' : Sheet} {q : Position} (h : σ'.implOf q = σ.implOf q) :
    σ'.cachedAt q = σ.cachedAt q := by
  unfold Sheet.cachedAt Sheet.cacheOf
  rw [h]

/-- Observable effect of a successful `Cell::EraseEdges`: domain
unchanged, contents as after the cache pass, this cell's referenced set
cleared, its position erased from the referring set of every cell it
referenced, everything else untouched. -/
theorem eraseEdges_obs {fuel : Nat} {σ σ1 : Sheet} {p : Position}
    (h : Cell.EraseEdges fuel σ p = .ok σ1) :
    ∃ c σcc, σ.GetCell p = some c ∧
      Cell.ClearCaches fuel σ c.referring = .ok σcc ∧
      (∀ q, (σ1.GetCell q).isSome = (σ.GetCell q).isSome) ∧
      (∀ q, σ1.implOf q = σcc.implOf q) ∧
      (∀ q, σ1.cachedAt q = σcc.cachedAt q) ∧
      σ1.referencedOf p = [] ∧
      (∀ q, q ≠ p → σ1.referencedOf q = σ.referencedOf q) ∧
      (∀ q, σ1.referringOf q =
        if q ∈ σ.referencedOf p then erasePos p (σ.referringOf q) else σ.referringOf q) := by
  obtain ⟨c, σcc, c2, hg, hcc, hg2, hσ1⟩ := eraseEdges_ok_inv h
  subst hσ1
  have hdecc := clearCaches_decache hcc
  have hrefd : σ.referencedOf p = c.referenced := by
    unfold Sheet.referencedOf; rw [hg]; rfl
  have himpl : ∀ q,
      ((eraseReferredLoop σcc p c.referenced).update p
        { c2 with referenced := [] }).implOf q = σcc.implOf q := by
    intro q
    have hup : ((eraseReferredLoop σcc p c.referenced).update p
        { c2 with referenced := [] }).implOf q
          = (eraseReferredLoop σcc p c.referenced).implOf q := by
      unfold Sheet.implOf
      by_cases hq : q = p
      · subst hq
        rw [Sheet.getCell_update_self hg2, hg2]
        rfl
      · rw [Sheet.getCell_update_ne hq]
    rw [hup, eraseReferredLoop_implOf]
  refine ⟨c, σcc, hg, hcc, ?_, himpl, ?_, ?_, ?_, ?_⟩
  · intro q
    rw [Sheet.isSome_getCell_update, eraseReferredLoop_isSome,
        decacheOf_isSome hdecc q]
  · intro q
    exact cachedAt_congr (himpl q)
  · unfold Sheet.referencedOf
    rw [Sheet.getCell_update_self hg2]
    rfl
  · intro q hq
    have hup : ((eraseReferredLoop σcc p c.referenced).update p
        { c2 with referenced := [] }).referencedOf q
          = (eraseReferredLoop σcc p c.referenced).referencedOf q := by
      unfold Sheet.referencedOf
      rw [Sheet.getCell_update_ne hq]
    rw [hup, eraseReferredLoop_referencedOf, decacheOf_referencedOf hdecc q]
  · intro q
    rw [hrefd]
    by_cases hq : q = p
    · subst hq
      have h1 : ((eraseReferredLoop σcc q c.referenced).update q
          { c2 with referenced := [] }).referringOf q = c2.referring := by
        unfold Sheet.referringOf
        rw [Sheet.getCell_update_self hg2]
        rfl
      have h2 : (eraseReferredLoop σcc q c.referenced).referringOf q = c2.referring := by
        unfold Sheet.referringOf
        rw [hg2]
        rfl
      rw [h1, ← h2, eraseReferredLoop_referringOf, decacheOf_referringOf hdecc q]
    · have hup : ((eraseReferredLoop σcc p c.referenced).update p
          { c2 with referenced := [] }).referringOf q
            = (eraseReferredLoop σcc p c.referenced).referringOf q := by
        unfold Sheet.referringOf
        rw [Sheet.getCell_update_ne hq]
      rw [hup, eraseReferredLoop_referringOf, decacheOf_referringOf hdecc q]

/-! ## `Cell::AddEdges` -/

theorem setCellEmpty_getCell (σ : Sheet) (r q : Position) :
    (σ.SetCellEmpty r).GetCell q =
      if r = q then some { impl := some .empty, referring := [], referenced := [] }
      else σ.GetCell q := rfl

theorem addAll_mem {x : Position} :
    ∀ (refs l : List Position), x ∈ addAll refs l ↔ x ∈ refs ∨ x ∈ l := by
  intro refs
  induction refs with
  | nil => intro l; simp [addAll]
  | cons r rest ih =>
    intro l
    show x ∈ addAll rest (insertPos r l) ↔ _
    rw [ih (insertPos r l)]
    constructor
    · rintro (hx | hx)
      · exact Or.inl (List.mem_cons_of_mem r hx)
      · rcases insertPos_mem.mp hx with rfl | hx
        · exact Or.inl (List.mem_cons_self _ _)
        · exact Or.inr hx
    · rintro (hx | hx)
      · rcases List.mem_cons.mp hx with rfl | hx
        · exact Or.inr (insertPos_mem.mpr (Or.inl rfl))
        · exact Or.inl hx
      · exact Or.inr (insertPos_mem.mpr (Or.inr hx))

theorem addEdges_cons_present {σ : Sheet} {p r : Position} {c cp : Cell}
    (rest : List Position) (hr : σ.GetCell r = some c) (hp : σ.GetCell p = some cp)
    (hrp : r ≠ p) :
    Cell.AddEdges σ p (r :: rest) =
      Cell.AddEdges
        ((σ.update p { cp with referenced := insertPos r cp.referenced }).update r
          { c with referring := insertPos p c.referring }) p rest := by
  simp only [Cell.AddEdges]
  rw [hr]
  dsimp only [Option.isSome]
  rw [if_pos rfl, hp]
  dsimp only
  rw [Sheet.getCell_update_ne hrp, hr]

theorem addEdges_cons_absent {σ : Sheet} {p r : Position} {cp : Cell}
    (rest : List Position) (hr : σ.GetCell r = none) (hp : σ.GetCell p = some cp)
    (hrp : r ≠ p) :
    Cell.AddEdges σ p (r :: rest) =
      Cell.AddEdges
        (((σ.SetCellEmpty r).update p { cp with referenced := insertPos r cp.referenced }).update r
          { impl := some .empty, referring := insertPos p [], referenced := [] }) p rest := by
  simp only [Cell.AddEdges]
  rw [hr]
  dsimp only [Option.isSome]
  rw [if_neg (by simp)]
  have hp1 : (σ.SetCellEmpty r).GetCell p = some cp := by
    rw [setCellEmpty_getCell, if_neg hrp, hp]
  rw [hp1]
  dsimp only
  rw [Sheet.getCell_update_ne hrp, setCellEmpty_getCell, if_pos rfl]

/-- Exact effect of `Cell::AddEdges` on the cell table, provided the
setting cell exists and does not appear in the reference list (which cycle
detection guarantees): its referenced set absorbs the whole list, each
listed cell gains the setting cell in its referring set (being created
Empty when absent), and no other cell changes. -/
theorem addEdges_getCell {p : Position} :
    ∀ (refs : List Position) (σ : Sheet) (cp : Cell),
      σ.GetCell p = some cp → p ∉ refs →
      ∀ q, (Cell.AddEdges σ p refs).GetCell q =
        if q = p then some { cp with referenced := addAll refs cp.referenced }
        else
          match σ.GetCell q with
          | some c =>
              some (if q ∈ refs then { c with referring := insertPos p c.referring } else c)
          | none =>
              if q ∈ refs then
                some { impl := some .empty, referring := [p], referenced := [] }
              else none := by
  intro refs
  induction refs with
  | nil =>
    intro σ cp hp _ q
    show σ.GetCell q = _
    by_cases hq : q = p
    · subst hq
      rw [if_pos rfl, hp]
      rfl
    · rw [if_neg hq]
      cases hgq : σ.GetCell q with
      | none => simp
      | some c => simp
  | cons r rest ih =>
    intro σ cp hp hpmem q
    have hrp : r ≠ p := fun h => hpmem (h ▸ List.mem_cons_self _ _)
    have hprest : p ∉ rest := fun h => hpmem (List.mem_cons_of_mem _ h)
    cases hr : σ.GetCell r with
    | some c =>
      rw [addEdges_cons_present rest hr hp hrp]
      have hp3 : ((σ.update p { cp with referenced := insertPos r cp.referenced }).update r
          { c with referring := insertPos p c.referring }).GetCell p
            = some { cp with referenced := insertPos r cp.referenced } := by
        rw [Sheet.getCell_update_ne (Ne.symm hrp),
            Sheet.getCell_update_self hp]
      rw [ih _ _ hp3 hprest q]
      by_cases hq : q = p
      · subst hq
        rw [if_pos rfl, if_pos rfl]
        rfl
      · rw [if_neg hq, if_neg hq]
        by_cases hqr : q = r
        · subst hqr
          have h3q : ((σ.update p { cp with referenced := insertPos q cp.referenced }).update q
              { c with referring := insertPos p c.referring }).GetCell q
                = some { c with referring := insertPos p c.referring } := by
            apply Sheet.getCell_update_self
            rw [Sheet.getCell_update_ne hq, hr]
          rw [h3q, hr]
          by_cases hqrest : q ∈ rest <;> simp [hqrest, insertPos_idem]
        · have h3q : ((σ.update p { cp with referenced := insertPos r cp.referenced }).update r
              { c with referring := insertPos p c.referring }).GetCell q = σ.GetCell q := by
            rw [Sheet.getCell_update_ne hqr, Sheet.getCell_update_ne hq]
          rw [h3q]
          have hmem : (q ∈ r :: rest) ↔ (q ∈ rest) := by simp [hqr]
          cases hgq : σ.GetCell q <;> simp [hmem]
    | none =>
      rw [addEdges_cons_absent rest hr hp hrp]
      have hp3 : (((σ.SetCellEmpty r).update p
          { cp with referenced := insertPos r cp.referenced }).update r
          { impl := some .empty, referring := insertPos p [], referenced := [] }).GetCell p
            = some { cp with referenced := insertPos r cp.referenced } := by
        rw [Sheet.getCell_update_ne (Ne.symm hrp)]
        apply Sheet.getCell_update_self
        rw [setCellEmpty_getCell, if_neg hrp, hp]
      rw [ih _ _ hp3 hprest q]
      by_cases hq : q = p
      · subst hq
        rw [if_pos rfl, if_pos rfl]
        rfl
      · rw [if_neg hq, if_neg hq]
        by_cases hqr : q = r
        · subst hqr
          have h3q : (((σ.SetCellEmpty q).update p
              { cp with referenced := insertPos q cp.referenced }).update q
              { impl := some .empty, referring := insertPos p [], referenced := [] }).GetCell q
                = some { impl := some .empty, referring := insertPos p [], referenced := [] } := by
            apply Sheet.getCell_update_self
            rw [Sheet.getCell_update_ne hq, setCellEmpty_getCell, if_pos rfl]
          rw [h3q, hr]
          by_cases hqrest : q ∈ rest <;> simp [hqrest, insertPos]
        · have h3q : (((σ.SetCellEmpty r).update p
              { cp with referenced := insertPos r cp.referenced }).update r
              { impl := some .empty, referring := insertPos p [], referenced := [] }).GetCell q
                = σ.GetCell q := by
            rw [Sheet.getCell_update_ne hqr, Sheet.getCell_update_ne hq,
                setCellEmpty_getCell, if_neg (fun hh => hqr hh.symm)]
          rw [h3q]
          have hmem : (q ∈ r :: rest) ↔ (q ∈ rest) := by simp [hqr]
          cases hgq : σ.GetCell q <;> simp [hmem]

/-! ## `Cell::Set`: inversion -/

theorem commitImpl_ne_cyc {σ σc : Sheet} {p : Position} {i : Impl} :
    Cell.commitImpl σ p i ≠ .cyc σc := by
  unfold Cell.commitImpl
  cases σ.GetCell p <;> simp

theorem cellSet_ok_inv {parse : String → List Position × String} {fuel : Nat}
    {σ σ' : Sheet} {p : Position} {t : String}
    (h : Cell.Set parse fuel σ p t = .ok σ') :
    ∃ σ1, Cell.EraseEdges fuel σ p = .ok σ1 ∧
      ((t.data = [] ∧ Cell.commitImpl σ1 p .empty = .ok σ') ∨
       (∃ c cs, t.data = c :: cs ∧ (c = FORMULA_SIGN ∧ cs ≠ []) ∧
          (∃ vis, Cell.CheckCircularError fuel σ1 p (parse (String.mk cs)).1 [] = .ok vis) ∧
          Cell.commitImpl (Cell.AddEdges σ1 p (parse (String.mk cs)).1) p
            (.formula { refs := (parse (String.mk cs)).1,
                        expr := (parse (String.mk cs)).2, cache := none }) = .ok σ') ∨
       (∃ c cs, t.data = c :: cs ∧ ¬(c = FORMULA_SIGN ∧ cs ≠ []) ∧
          Cell.commitImpl σ1 p (.text t) = .ok σ')) := by
  unfold Cell.Set at h
  cases hE : Cell.EraseEdges fuel σ p with
  | crash => rw [hE] at h; exact absurd h (by simp)
  | fuelOut => rw [hE] at h; exact absurd h (by simp)
  | ok σ1 =>
    rw [hE] at h
    dsimp only at h
    refine ⟨σ1, rfl, ?_⟩
    cases ht : t.data with
    | nil =>
      rw [ht] at h
      exact Or.inl ⟨rfl, h⟩
    | cons c cs =>
      rw [ht] at h
      dsimp only at h
      by_cases hf : c = FORMULA_SIGN ∧ cs ≠ []
      · rw [if_pos hf] at h
        cases hchk : Cell.CheckCircularError fuel σ1 p (parse (String.mk cs)).1 [] with
        | ok vis =>
          rw [hchk] at h
          exact Or.inr (Or.inl ⟨c, cs, rfl, hf, ⟨vis, hchk⟩, h⟩)
        | cyc => rw [hchk] at h; exact absurd h (by simp)
        | crash => rw [hchk] at h; exact absurd h (by simp)
        | fuelOut => rw [hchk] at h; exact absurd h (by simp)
      · rw [if_neg hf] at h
        exact Or.inr (Or.inr ⟨c, cs, rfl, hf, h⟩)

theorem cellSet_cyc_inv {parse : String → List Position × String} {fuel : Nat}
    {σ σc : Sheet} {p : Position} {t : String}
    (h : Cell.Set parse fuel σ p t = .cyc σc) :
    Cell.EraseEdges fuel σ p = .ok σc ∧
    ∃ c cs, t.data = c :: cs ∧ c = FORMULA_SIGN ∧ cs ≠ [] ∧
      Cell.CheckCircularError fuel σc p (parse (String.mk cs)).1 [] = .cyc := by
  unfold Cell.Set at h
  cases hE : Cell.EraseEdges fuel σ p with
  | crash => rw [hE] at h; exact absurd h (by simp)
  | fuelOut => rw [hE] at h; exact absurd h (by simp)
  | ok σ1 =>
    rw [hE] at h
    dsimp only at h
    cases ht : t.data with
    | nil =>
      rw [ht] at h
      exact absurd h commitImpl_ne_cyc
    | cons c cs =>
      rw [ht] at h
      dsimp only at h
      by_cases hf : c = FORMULA_SIGN ∧ cs ≠ []
      · rw [if_pos hf] at h
        cases hchk : Cell.CheckCircularError fuel σ1 p (parse (String.mk cs)).1 [] with
        | ok vis => rw [hchk] at h; exact absurd h commitImpl_ne_cyc
        | cyc =>
          rw [hchk] at h
          injection h with h
          subst h
          exact ⟨rfl, c, cs, rfl, hf.1, hf.2, hchk⟩
        | crash => rw [hchk] at h; exact absurd h (by simp)
        | fuelOut => rw [hchk] at h; exact absurd h (by simp)
      · rw [if_neg hf] at h
        exact absurd h commitImpl_ne_cyc

/-! ## `Cell::CheckCircularError`: unfolding lemmas -/

theorem getCell_mem : ∀ {σ : Sheet} {p : Position} {c : Cell},
    σ.GetCell p = some c → (p, c) ∈ σ := by
  intro σ
  induction σ with
  | nil => intro p c h; simp [Sheet.GetCell] at h
  | cons e rest ih =>
    obtain ⟨q, d⟩ := e
    intro p c h
    by_cases hq : q = p
    · subst hq
      simp only [Sheet.GetCell, if_pos rfl] at h
      injection h with h
      subst h
      exact List.mem_cons_self _ _
    · simp only [Sheet.GetCell, if_neg hq] at h
      exact List.mem_cons_of_mem _ (ih h)

theorem chk_cons_visited {fuel : Nat} {σ : Sheet} {P r : Position}
    {rest visited : List Position} (hv : r ∈ visited) :
    Cell.CheckCircularError (fuel + 1) σ P (r :: rest) visited =
      Cell.CheckCircularError fuel σ P rest visited := by
  simp only [Cell.CheckCircularError]
  rw [if_pos hv]

theorem chk_cons_self {fuel : Nat} {σ : Sheet} {P r : Position}
    {rest visited : List Position} (hv : r ∉ visited) (hr : r = P) :
    Cell.CheckCircularError (fuel + 1) σ P (r :: rest) visited = .cyc := by
  simp only [Cell.CheckCircularError]
  rw [if_neg hv, if_pos hr]

theorem chk_cons_absent {fuel : Nat} {σ : Sheet} {P r : Position}
    {rest visited : List Position} (hv : r ∉ visited) (hr : r ≠ P)
    (hg : σ.GetCell r = none) :
    Cell.CheckCircularError (fuel + 1) σ P (r :: rest) visited =
      Cell.CheckCircularError fuel σ P rest (r :: visited) := by
  simp only [Cell.CheckCircularError]
  rw [if_neg hv, if_neg hr, hg]

theorem chk_cons_noimpl {fuel : Nat} {σ : Sheet} {P r : Position} {c : Cell}
    {rest visited : List Position} (hv : r ∉ visited) (hr : r ≠ P)
    (hg : σ.GetCell r = some c) (hi : c.impl = none) :
    Cell.CheckCircularError (fuel + 1) σ P (r :: rest) visited = .crash := by
  simp only [Cell.CheckCircularError]
  rw [if_neg hv, if_neg hr, hg]
  dsimp only
  rw [hi]

theorem chk_cons_impl {fuel : Nat} {σ : Sheet} {P r : Position} {c : Cell} {i : Impl}
    {rest visited : List Position} (hv : r ∉ visited) (hr : r ≠ P)
    (hg : σ.GetCell r = some c) (hi : c.impl = some i) :
    Cell.CheckCircularError (fuel + 1) σ P (r :: rest) visited =
      match Cell.CheckCircularError fuel σ P i.GetReferencedCells (r :: visited) with
      | .ok visited2 => Cell.CheckCircularError fuel σ P rest visited2
      | e => e := by
  simp only [Cell.CheckCircularError]
  rw [if_neg hv, if_neg hr, hg]
  dsimp only
  rw [hi]

theorem contentRefs_of_impl {σ : Sheet} {r : Position} {c : Cell} {i : Impl}
    (hg : σ.GetCell r = some c) (hi : c.impl = some i) :
    σ.contentRefs r = i.GetReferencedCells := by
  unfold Sheet.contentRefs Sheet.implOf
  rw [hg]
  dsimp only [Option.bind]
  rw [hi]

/-- Soundness of the cycle check: it only throws when the cell's own
position is reachable from the candidate reference list. -/
theorem chk_cyc_sound :
    ∀ {fuel : Nat} {σ : Sheet} {P : Position} {refs visited : List Position},
      Cell.CheckCircularError fuel σ P refs visited = .cyc →
      ∃ r ∈ refs, Reaches σ P r := by
  intro fuel
  induction fuel with
  | zero => intro σ P refs visited h; simp [Cell.CheckCircularError] at h
  | succ fuel ih =>
    intro σ P refs visited h
    cases refs with
    | nil => simp [Cell.CheckCircularError] at h
    | cons r rest =>
      by_cases hv : r ∈ visited
      · rw [chk_cons_visited hv] at h
        obtain ⟨r', hr', hreach⟩ := ih h
        exact ⟨r', List.mem_cons_of_mem _ hr', hreach⟩
      · by_cases hr : r = P
        · subst hr
          exact ⟨r, List.mem_cons_self _ _, Reaches.here⟩
        · cases hg : σ.GetCell r with
          | none =>
            rw [chk_cons_absent hv hr hg] at h
            obtain ⟨r', hr', hreach⟩ := ih h
            exact ⟨r', List.mem_cons_of_mem _ hr', hreach⟩
          | some c =>
            cases hi : c.impl with
            | none => rw [chk_cons_noimpl hv hr hg hi] at h; exact absurd h (by simp)
            | some i =>
              rw [chk_cons_impl hv hr hg hi] at h
              cases hsub : Cell.CheckCircularError fuel σ P i.GetReferencedCells (r :: visited) with
              | ok v2 =>
                rw [hsub] at h
                obtain ⟨r', hr', hreach⟩ := ih h
                exact ⟨r', List.mem_cons_of_mem _ hr', hreach⟩
              | cyc =>
                obtain ⟨cc, hcc, hreach⟩ := ih hsub
                refine ⟨r, List.mem_cons_self _ _, Reaches.step ?_ hreach⟩
                rw [contentRefs_of_impl hg hi]
                exact hcc
              | crash => rw [hsub] at h; exact absurd h (by simp)
              | fuelOut => rw [hsub] at h; exact absurd h (by simp)

/-- Master invariant of a cycle check that returns normally: the visited
set only grows, every checked reference was visited, and every newly
visited position is distinct from the cell's own position with all the
referenced cells of its committed content visited as well. -/
theorem chk_ok_master :
    ∀ {fuel : Nat} {σ : Sheet} {P : Position} {refs visited visited' : List Position},
      Cell.CheckCircularError fuel σ P refs visited = .ok visited' →
      (∀ v ∈ visited, v ∈ visited') ∧ (∀ r ∈ refs, r ∈ visited') ∧
      (∀ v ∈ visited', v ∈ visited ∨ (v ≠ P ∧ ∀ c ∈ σ.contentRefs v, c ∈ visited')) := by
  intro fuel
  induction fuel with
  | zero => intro σ P refs visited visited' h; simp [Cell.CheckCircularError] at h
  | succ fuel ih =>
    intro σ P refs visited visited' h
    cases refs with
    | nil =>
      simp [Cell.CheckCircularError] at h
      subst h
      exact ⟨fun v hv => hv, fun r hr => absurd hr (List.not_mem_nil r),
        fun v hv => Or.inl hv⟩
    | cons r rest =>
      by_cases hv : r ∈ visited
      · rw [chk_cons_visited hv] at h
        obtain ⟨ha, hb, hc⟩ := ih h
        refine ⟨ha, ?_, hc⟩
        intro x hx
        rcases List.mem_cons.mp hx with rfl | hx
        · exact ha x hv
        · exact hb x hx
      · by_cases hr : r = P
        · rw [chk_cons_self hv hr] at h; exact absurd h (by simp)
        · cases hg : σ.GetCell r with
          | none =>
            rw [chk_cons_absent hv hr hg] at h
            obtain ⟨ha, hb, hc⟩ := ih h
            have hrin : r ∈ visited' := ha r (List.mem_cons_self _ _)
            refine ⟨fun v hvv => ha v (List.mem_cons_of_mem _ hvv), ?_, ?_⟩
            · intro x hx
              rcases List.mem_cons.mp hx with rfl | hx
              · exact hrin
              · exact hb x hx
            · intro v hvv
              rcases hc v hvv with hmem | hclose
              · rcases List.mem_cons.mp hmem with rfl | hmem
                · refine Or.inr ⟨hr, ?_⟩
                  intro cc hcc
                  have : σ.contentRefs v = [] := by
                    unfold Sheet.contentRefs Sheet.implOf
                    rw [hg]
                    rfl
                  rw [this] at hcc
                  exact absurd hcc (List.not_mem_nil cc)
                · exact Or.inl hmem
              · exact Or.inr hclose
          | some c =>
            cases hi : c.impl with
            | none => rw [chk_cons_noimpl hv hr hg hi] at h; exact absurd h (by simp)
            | some i =>
              rw [chk_cons_impl hv hr hg hi] at h
              cases hsub : Cell.CheckCircularError fuel σ P i.GetReferencedCells (r :: visited) with
              | ok v2 =>
                rw [hsub] at h
                obtain ⟨ha1, hb1, hc1⟩ := ih hsub
                obtain ⟨ha2, hb2, hc2⟩ := ih h
                have hrv2 : r ∈ v2 := ha1 r (List.mem_cons_self _ _)
                have hsubs : ∀ v ∈ v2, v ∈ visited' := ha2
                refine ⟨?_, ?_, ?_⟩
                · intro v hvv
                  exact ha2 v (ha1 v (List.mem_cons_of_mem _ hvv))
                · intro x hx
                  rcases List.mem_cons.mp hx with rfl | hx
                  · exact ha2 x hrv2
                  · exact hb2 x hx
                · intro v hvv
                  rcases hc2 v hvv with hmem2 | hclose2
                  · rcases hc1 v hmem2 with hmem1 | hclose1
                    · rcases List.mem_cons.mp hmem1 with rfl | hmem1
                      · refine Or.inr ⟨hr, ?_⟩
                        rw [contentRefs_of_impl hg hi]
                        intro cc hcc
                        exact ha2 cc (hb1 cc hcc)
                      · exact Or.inl hmem1
                    · exact Or.inr ⟨hclose1.1, fun cc hcc => ha2 cc (hclose1.2 cc hcc)⟩
                  · exact Or.inr hclose2
              | cyc => rw [hsub] at h; exact absurd h (by simp)
              | crash => rw [hsub] at h; exact absurd h (by simp)
              | fuelOut => rw [hsub] at h; exact absurd h (by simp)

/-- With every stored cell initialized, the cycle check never dereferences
a null content object. -/
theorem chk_no_crash {σ : Sheet} (hI : Inited σ) {P : Position} :
    ∀ {fuel : Nat} {refs visited : List Position},
      Cell.CheckCircularError fuel σ P refs visited ≠ .crash := by
  intro fuel
  induction fuel with
  | zero => intro refs visited h; simp [Cell.CheckCircularError] at h
  | succ fuel ih =>
    intro refs visited h
    cases refs with
    | nil => simp [Cell.CheckCircularError] at h
    | cons r rest =>
      by_cases hv : r ∈ visited
      · rw [chk_cons_visited hv] at h; exact ih h
      · by_cases hr : r = P
        · rw [chk_cons_self hv hr] at h; exact absurd h (by simp)
        · cases hg : σ.GetCell r with
          | none => rw [chk_cons_absent hv hr hg] at h; exact ih h
          | some c =>
            cases hi : c.impl with
            | none =>
              have := hI (r, c) (getCell_mem hg)
              simp only [hi] at this
              exact absurd this (by simp)
            | some i =>
              rw [chk_cons_impl hv hr hg hi] at h
              cases hsub : Cell.CheckCircularError fuel σ P i.GetReferencedCells (r :: visited) with
              | ok v2 => rw [hsub] at h; exact ih h
              | cyc => rw [hsub] at h; exact absurd h (by simp)
              | crash => exact ih hsub
              | fuelOut => rw [hsub] at h; exact absurd h (by simp)

/-- A cycle check that returns normally never had the cell's own position
in its reference list. -/
theorem chk_ok_not_mem :
    ∀ {fuel : Nat} {σ : Sheet} {P : Position} {refs visited visited' : List Position},
      Cell.CheckCircularError fuel σ P refs visited = .ok visited' →
      P ∉ visited → P ∉ refs := by
  intro fuel
  induction fuel with
  | zero => intro σ P refs visited visited' h; simp [Cell.CheckCircularError] at h
  | succ fuel ih =>
    intro σ P refs visited visited' h hPv
    cases refs with
    | nil => exact List.not_mem_nil P
    | cons r rest =>
      by_cases hv : r ∈ visited
      · rw [chk_cons_visited hv] at h
        intro hmem
        rcases List.mem_cons.mp hmem with rfl | hmem
        · exact hPv hv
        · exact ih h hPv hmem
      · by_cases hr : r = P
        · rw [chk_cons_self hv hr] at h; exact absurd h (by simp)
        · cases hg : σ.GetCell r with
          | none =>
            rw [chk_cons_absent hv hr hg] at h
            intro hmem
            rcases List.mem_cons.mp hmem with rfl | hmem
            · exact hr rfl
            · refine ih h ?_ hmem
              intro hP
              rcases List.mem_cons.mp hP with rfl | hP
              · exact hr rfl
              · exact hPv hP
          | some c =>
            cases hi : c.impl with
            | none => rw [chk_cons_noimpl hv hr hg hi] at h; exact absurd h (by simp)
            | some i =>
              rw [chk_cons_impl hv hr hg hi] at h
              cases hsub : Cell.CheckCircularError fuel σ P i.GetReferencedCells (r :: visited) with
              | ok v2 =>
                rw [hsub] at h
                have hPv2 : P ∉ v2 := by
                  intro hP
                  obtain ⟨_, _, hc1⟩ := chk_ok_master hsub
                  rcases hc1 P hP with hmem | hclose
                  · rcases List.mem_cons.mp hmem with rfl | hmem
                    · exact hr rfl
                    · exact hPv hmem
                  · exact hclose.1 rfl
                intro hmem
                rcases List.mem_cons.mp hmem with rfl | hmem
                · exact hr rfl
                · exact ih h hPv2 hmem
              | cyc => rw [hsub] at h; exact absurd h (by simp)
              | crash => rw [hsub] at h; exact absurd h (by simp)
              | fuelOut => rw [hsub] at h; exact absurd h (by simp)

/-! ## C2: the cycle check throws exactly on reachability -/

/-- C2: `Set` on cell `P` with a Formula candidate whose reference list is
`refs` raises the circular-dependency failure iff `P` is reachable from
some position of `refs` by following the referenced cells of the contents
already committed in the sheet; absent positions are leaves, and the
traversal uses a visited set keyed by position (hypotheses: every stored
cell is initialized, and the modelling fuel does not run out). -/
theorem c2_circular_check_iff_reachable (fuel : Nat) (σ : Sheet) (P : Position)
    (refs : List Position) (hI : Inited σ)
    (hf : Cell.CheckCircularError fuel σ P refs [] ≠ .fuelOut) :
    (Cell.CheckCircularError fuel σ P refs [] = .cyc ↔ ∃ r ∈ refs, Reaches σ P r) := by
  constructor
  · exact chk_cyc_sound
  · rintro ⟨r, hr, hreach⟩
    cases hres : Cell.CheckCircularError fuel σ P refs [] with
    | cyc => rfl
    | crash => exact absurd hres (chk_no_crash hI)
    | fuelOut => exact absurd hres hf
    | ok visited' =>
      obtain ⟨_, hb, hc⟩ := chk_ok_master hres
      have key : ∀ v, Reaches σ P v → v ∈ visited' → False := by
        intro v hv
        induction hv with
        | here =>
          intro hP
          rcases hc P hP with hmem | hclose
          · exact absurd hmem (List.not_mem_nil P)
          · exact hclose.1 rfl
        | step hcc _ ihh =>
          intro hvv
          rcases hc _ hvv with hmem | hclose
          · exact absurd hmem (List.not_mem_nil _)
          · exact ihh (hclose.2 _ hcc)
      exact (key r hreach (hb r hr)).elim

/-- C2 witness: on the sheet `A1 = "=B1"`, checking the candidate list
`[A1]` for cell `B1` throws, matching reachability of `B1` from `A1`. -/
theorem c2_witness :
    Inited sheetA ∧
    Cell.CheckCircularError 100 sheetA pB1 [pA1] [] ≠ .fuelOut ∧
    (Cell.CheckCircularError 100 sheetA pB1 [pA1] [] = .cyc ↔
      ∃ r ∈ [pA1], Reaches sheetA pB1 r) :=
  ⟨by decide, by decide,
   c2_circular_check_iff_reachable 100 sheetA pB1 [pA1] (by decide) (by decide)⟩

/-! ## C3: cache invalidation on a completed `Set` -/

theorem update_cachedAt_ne {σ : Sheet} {p q : Position} (c : Cell) (hq : q ≠ p) :
    (σ.update p c).cachedAt q = σ.cachedAt q := by
  unfold Sheet.cachedAt Sheet.cacheOf Sheet.implOf
  rw [Sheet.getCell_update_ne hq]

theorem update_cachedAt_self {σ : Sheet} {p : Position} {d : Cell} (hg : σ.GetCell p = some d)
    (c : Cell) :
    (σ.update p c).cachedAt p =
      (match c.impl with | some (.formula f) => f.cache | _ => none).isSome := by
  unfold Sheet.cachedAt Sheet.cacheOf Sheet.implOf
  rw [Sheet.getCell_update_self hg]
  rfl

/-- `Cell::AddEdges` never touches a cache: it edits edge sets and creates
Empty cells only. -/
theorem addEdges_cachedAt {σ : Sheet} {p : Position} {cp : Cell} {refs : List Position}
    (hp : σ.GetCell p = some cp) (hnp : p ∉ refs) (q : Position) :
    (Cell.AddEdges σ p refs).cachedAt q = σ.cachedAt q := by
  unfold Sheet.cachedAt Sheet.cacheOf Sheet.implOf
  rw [addEdges_getCell refs σ cp hp hnp q]
  by_cases hq : q = p
  · subst hq
    rw [if_pos rfl, hp]
    rfl
  · rw [if_neg hq]
    cases hgq : σ.GetCell q with
    | some c => by_cases hmem : q ∈ refs <;> simp [hmem]
    | none => by_cases hmem : q ∈ refs <;> simp [hmem]

/-- C3 (amended): for every completed `Set`, the invalidation pass —
seeded from the cell's referring set at call start — clears the cache of
every cell reachable from that set through a chain of referring edges all
of whose cells hold populated caches; the pass recurses only through cells
whose cache is populated when visited, using cache emptiness itself as the
visited marker rather than a separate visited set. -/
theorem c3_cached_chain_invalidated (parse : String → List Position × String) (fuel : Nat)
    {σ σ' : Sheet} {p : Position} {c : Cell} {t : String}
    (hcell : σ.GetCell p = some c)
    (h : Cell.Set parse fuel σ p t = .ok σ') :
    ∀ x, CachedChain σ c.referring x → σ'.cachedAt x = false := by
  obtain ⟨σ1, hE, hbr⟩ := cellSet_ok_inv h
  obtain ⟨c0, σcc, hg0, hcc, hdom, himpl, hcach, hrefd, hrefdne, hrefr⟩ := eraseEdges_obs hE
  have hc0 : c0 = c := by
    rw [hg0] at hcell
    injection hcell
  subst hc0
  intro x hx
  have h1 : σ1.cachedAt x = false := by
    rw [hcach x]
    exact clearCaches_chain_cleared hcc x hx
  have hp1 : ∃ cp1, σ1.GetCell p = some cp1 := by
    apply Option.isSome_iff_exists.mp
    rw [hdom p, hg0]
    rfl
  obtain ⟨cp1, hp1⟩ := hp1
  rcases hbr with ⟨ht, hcommit⟩ | ⟨ch, cs, ht, hf, ⟨vis, hchk⟩, hcommit⟩ | ⟨ch, cs, ht, hnf, hcommit⟩
  · obtain ⟨cc1, hg1, rfl⟩ := Cell.commitImpl_ok hcommit
    by_cases hxp : x = p
    · subst hxp
      rw [update_cachedAt_self hg1]
      rfl
    · rw [update_cachedAt_ne _ hxp]
      exact h1
  · obtain ⟨cc1, hg1, rfl⟩ := Cell.commitImpl_ok hcommit
    have hnp : p ∉ (parse (String.mk cs)).1 :=
      chk_ok_not_mem hchk (List.not_mem_nil p)
    by_cases hxp : x = p
    · subst hxp
      rw [update_cachedAt_self hg1]
      rfl
    · rw [update_cachedAt_ne _ hxp, addEdges_cachedAt hp1 hnp x]
      exact h1
  · obtain ⟨cc1, hg1, rfl⟩ := Cell.commitImpl_ok hcommit
    by_cases hxp : x = p
    · subst hxp
      rw [update_cachedAt_self hg1]
      rfl
    · rw [update_cachedAt_ne _ hxp]
      exact h1

/-- C3 counterexample: on `sheetGap`, a completed `Set` on `A1` leaves the
cache of `C1` populated even though `C1` transitively depends on `A1` via
referring edges — the pass stopped at the cache-empty cell `B1`, so the
claim's "cleared regardless of intermediate cache states" fails. -/
theorem c3_counterexample :
    Cell.Set demoParse 100 sheetGap pA1 "2" = .ok sheetGapAfter ∧
    pB1 ∈ Sheet.referringOf sheetGap pA1 ∧
    pC1 ∈ Sheet.referringOf sheetGap pB1 ∧
    Sheet.cacheOf sheetGapAfter pC1 = some (.num 1) := by decide

/-- C3 witness: on `sheetFull`, whose chain caches are all populated, the
amended theorem applies and `C1`'s cache is indeed cleared. -/
theorem c3_witness :
    Cell.Set demoParse 100 sheetFull pA1 "2" = .ok sheetFullAfter ∧
    Sheet.cachedAt sheetFullAfter pC1 = false :=
  ⟨by decide,
   @c3_cached_chain_invalidated demoParse 100 sheetFull sheetFullAfter pA1
     ⟨some (.text "1"), [pB1], []⟩ "2" (by decide) (by decide) pC1
     (@CachedChain.step sheetFull [pB1] pB1 pC1
       (@CachedChain.seed sheetFull [pB1] pB1 (by decide) (by decide))
       (by decide) (by decide))⟩

/-! ## C5: graceful skip holds for edge removal, not for cache clearing -/

/-- C5 (amended): once the cache pass over the referring set has
succeeded, `Cell::EraseEdges` always completes — a referenced position at
which the collaborator holds no cell is skipped benignly and remains
absent — whereas (see the counterexample) the cache pass itself
dereferences absent referring positions without any check. -/
theorem c5_erase_edges_skips_absent (fuel : Nat) {σ σcc : Sheet} {p : Position} {c : Cell}
    (hg : σ.GetCell p = some c)
    (hcc : Cell.ClearCaches fuel σ c.referring = .ok σcc) :
    ∃ σ1, Cell.EraseEdges fuel σ p = .ok σ1 ∧
      ∀ q, σ.GetCell q = none → σ1.GetCell q = none := by
  obtain ⟨σ1, h1⟩ := eraseEdges_ok_of hg hcc
  refine ⟨σ1, h1, ?_⟩
  intro q hq
  obtain ⟨_, _, _, _, hdom, _, _, _, _, _⟩ := eraseEdges_obs h1
  have := hdom q
  rw [hq] at this
  exact Option.not_isSome_iff_eq_none.mp (by rw [this]; simp)

/-- C5 counterexample: a stale referring entry (position `B1` held in
`A1.referring` with no cell at `B1`) makes `Cell::Set` on `A1` dereference
a null cell handle inside `ClearCaches` instead of skipping it. -/
theorem c5_counterexample :
    pB1 ∈ Sheet.referringOf sheetStale pA1 ∧
    Sheet.GetCell sheetStale pB1 = none ∧
    Cell.Set demoParse 100 sheetStale pA1 "2" = .crash := by decide

/-- C5 witness: on `sheetStaleRef`, whose `A1` references the absent
position `B1`, edge removal completes and `B1` stays absent. -/
theorem c5_witness :
    ∃ σ1, Cell.EraseEdges 100 sheetStaleRef pA1 = .ok σ1 ∧
      ∀ q, sheetStaleRef.GetCell q = none → σ1.GetCell q = none :=
  @c5_erase_edges_skips_absent 100 sheetStaleRef sheetStaleRef pA1
    ⟨some (.formula ⟨[pB1], "B1", none⟩), [], [pB1]⟩ (by decide) (by decide)

/-! ## C6: content classification of `Set` -/

/-- C6: a completed `Set(s)` commits Empty content when `s` is empty,
Formula content compiled from `s` with its first character removed when
`s` begins with the formula marker and has further characters, and Text
content storing `s` unchanged in every other case. -/
theorem c6_classification (parse : String → List Position × String) (fuel : Nat)
    (σ σ' : Sheet) (p : Position) (s : String)
    (h : Cell.Set parse fuel σ p s = .ok σ') :
    (s = "" → σ'.implOf p = some .empty) ∧
    (∀ ch cs, s.data = ch :: cs → ch = FORMULA_SIGN → cs ≠ [] →
      σ'.implOf p = some (.formula
        { refs := (parse (String.mk cs)).1,
          expr := (parse (String.mk cs)).2, cache := none })) ∧
    (∀ ch cs, s.data = ch :: cs → ¬(ch = FORMULA_SIGN ∧ cs ≠ []) →
      σ'.implOf p = some (.text s)) := by
  obtain ⟨σ1, hE, hbr⟩ := cellSet_ok_inv h
  have hnil : ("" : String).data = [] := rfl
  refine ⟨?_, ?_, ?_⟩
  · intro hs
    subst hs
    rcases hbr with ⟨_, hcommit⟩ | ⟨ch, cs, ht, _, _, _⟩ | ⟨ch, cs, ht, _, _⟩
    · exact Cell.commitImpl_implOf hcommit
    · rw [hnil] at ht
      exact absurd ht (by simp)
    · rw [hnil] at ht
      exact absurd ht (by simp)
  · intro ch cs hdata hsign hcs
    rcases hbr with ⟨ht, _⟩ | ⟨ch', cs', ht, hf, _, hcommit⟩ | ⟨ch', cs', ht, hnf, _⟩
    · rw [hdata] at ht
      exact absurd ht (by simp)
    · rw [hdata] at ht
      injection ht with h1 h2
      subst h1
      subst h2
      exact Cell.commitImpl_implOf hcommit
    · rw [hdata] at ht
      injection ht with h1 h2
      subst h1
      subst h2
      exact absurd ⟨hsign, hcs⟩ hnf
  · intro ch cs hdata hnform
    rcases hbr with ⟨ht, _⟩ | ⟨ch', cs', ht, hf, _, _⟩ | ⟨ch', cs', ht, _, hcommit⟩
    · rw [hdata] at ht
      exact absurd ht (by simp)
    · rw [hdata] at ht
      injection ht with h1 h2
      subst h1
      subst h2
      exact absurd hf hnform
    · exact Cell.commitImpl_implOf hcommit

/-- C6 witness: `Set(A1, "=B1")` on a fresh cell commits Formula content
compiled from `"B1"`. -/
theorem c6_witness :
    Cell.Set demoParse 100 [(pA1, freshCell)] pA1 "=B1" = .ok sheetA ∧
    Sheet.implOf sheetA pA1 = some (.formula
      { refs := (demoParse (String.mk ['B', '1'])).1,
        expr := (demoParse (String.mk ['B', '1'])).2, cache := none }) :=
  ⟨by decide,
   (c6_classification demoParse 100 [(pA1, freshCell)] sheetA pA1 "=B1" (by decide)).2.1
     '=' ['B', '1'] (by decide) (by decide) (by decide)⟩

/-! ## C10: a never-`Set` cell has null content -/

/-- C10: a freshly constructed `Cell` has no content object; `GetText`,
`GetValue` and `GetReferencedCells` dereference the null content of a
never-`Set` cell (modelled as `none`), and every completed `Set` leaves
the cell with a content object. -/
theorem c10_null_content :
    freshCell.impl = none ∧
    (∀ c : Cell, c.impl = none → Cell.GetText c = none ∧ Cell.GetReferencedCells c = none) ∧
    (∀ (fuel : Nat) (σ : Sheet) (p : Position) (c : Cell),
      σ.GetCell p = some c → c.impl = none → Sheet.GetValue fuel σ p = none) ∧
    (∀ (parse : String → List Position × String) (fuel : Nat) (σ : Sheet)
      (p : Position) (t : String) (σ' : Sheet) (c' : Cell),
      Cell.Set parse fuel σ p t = .ok σ' → σ'.GetCell p = some c' →
      c'.impl.isSome = true) := by
  refine ⟨rfl, ?_, ?_, ?_⟩
  · intro c hc
    unfold Cell.GetText Cell.GetReferencedCells
    rw [hc]
    exact ⟨rfl, rfl⟩
  · intro fuel σ p c hg hc
    cases fuel with
    | zero => rfl
    | succ fuel =>
      simp only [Sheet.GetValue]
      rw [hg]
      dsimp only
      rw [hc]
  · intro parse fuel σ p t σ' c' h hg'
    obtain ⟨σ1, hE, hbr⟩ := cellSet_ok_inv h
    rcases hbr with ⟨_, hcommit⟩ | ⟨_, _, _, _, _, hcommit⟩ | ⟨_, _, _, _, hcommit⟩ <;>
    · obtain ⟨cb, hgb, rfl⟩ := Cell.commitImpl_ok hcommit
      rw [Sheet.getCell_update_self hgb] at hg'
      injection hg' with hg'
      subst hg'
      rfl

/-- C10 witness: the fresh cell's reads are undefined, and after a
completed `Set` the content object exists. -/
theorem c10_witness :
    Cell.GetText freshCell = none ∧
    Sheet.GetValue 100 [(pA1, freshCell)] pA1 = none := by
  constructor
  · exact (c10_null_content.2.1 freshCell rfl).1
  · exact c10_null_content.2.2.1 100 [(pA1, freshCell)] pA1 freshCell (by decide) rfl

/-! ## C8: auto-vivification on an accepted formula change -/

/-- C8: when a Formula change is accepted, every position of the new
reference list at which no cell existed ends up holding an Empty cell
whose referring set contains the setting cell, and the position enters the
setting cell's referenced set; when the change is rejected with the
circular-dependency failure, no cell is created at all. -/
theorem c8_autovivification (parse : String → List Position × String) (fuel : Nat)
    (σ : Sheet) (p : Position) (s : String) (ch : Char) (cs : List Char)
    (hs : s.data = ch :: cs) (hch : ch = FORMULA_SIGN) (hcs : cs ≠ []) :
    (∀ σ', Cell.Set parse fuel σ p s = .ok σ' →
      ∀ r ∈ (parse (String.mk cs)).1, σ.GetCell r = none →
        σ'.GetCell r = some { impl := some .empty, referring := [p], referenced := [] } ∧
        r ∈ σ'.referencedOf p) ∧
    (∀ σc, Cell.Set parse fuel σ p s = .cyc σc →
      ∀ q, (σc.GetCell q).isSome = (σ.GetCell q).isSome) := by
  constructor
  · intro σ' h r hr hrnone
    obtain ⟨σ1, hE, hbr⟩ := cellSet_ok_inv h
    obtain ⟨c0, σcc, hg0, hcc, hdom, _, _, _, _, _⟩ := eraseEdges_obs hE
    rcases hbr with ⟨ht, _⟩ | ⟨ch', cs', ht, hf, ⟨vis, hchk⟩, hcommit⟩ | ⟨ch', cs', ht, hnf, _⟩
    · rw [hs] at ht
      exact absurd ht (by simp)
    · rw [hs] at ht
      injection ht with h1 h2
      subst h1
      subst h2
      obtain ⟨cc1, hg1, rfl⟩ := Cell.commitImpl_ok hcommit
      have hnp : p ∉ (parse (String.mk cs)).1 :=
        chk_ok_not_mem hchk (List.not_mem_nil p)
      have hp1 : ∃ cp1, σ1.GetCell p = some cp1 := by
        apply Option.isSome_iff_exists.mp
        rw [hdom p, hg0]
        rfl
      obtain ⟨cp1, hp1⟩ := hp1
      have hr1none : σ1.GetCell r = none := by
        have hd := hdom r
        rw [hrnone] at hd
        exact Option.not_isSome_iff_eq_none.mp (by rw [hd]; simp)
      have hrp : r ≠ p := by
        intro hrp
        subst hrp
        rw [hp1] at hr1none
        exact absurd hr1none (by simp)
      have hadd := addEdges_getCell (parse (String.mk cs)).1 σ1 cp1 hp1 hnp
      have hcc1 : cc1 = { cp1 with
          referenced := addAll (parse (String.mk cs)).1 cp1.referenced } := by
        have h2 := hadd p
        rw [if_pos rfl, hg1] at h2
        injection h2
      constructor
      · rw [Sheet.getCell_update_ne hrp, hadd r, if_neg hrp, hr1none]
        simp [hr]
      · unfold Sheet.referencedOf
        rw [Sheet.getCell_update_self hg1]
        show r ∈ cc1.referenced
        rw [hcc1]
        exact (addAll_mem _ _).mpr (Or.inl hr)
    · rw [hs] at ht
      injection ht with h1 h2
      subst h1
      subst h2
      exact absurd ⟨hch, hcs⟩ hnf
  · intro σc h q
    obtain ⟨hE, _⟩ := cellSet_cyc_inv h
    obtain ⟨_, _, _, _, hdom, _, _, _, _, _⟩ := eraseEdges_obs hE
    exact hdom q

/-- C8 witness: `Set(A1, "=B1")` on a sheet without `B1` creates the Empty
cell at `B1` with the symmetric edge pair. -/
theorem c8_witness :
    Sheet.GetCell sheetA pB1 =
      some { impl := some .empty, referring := [pA1], referenced := [] } ∧
    pB1 ∈ Sheet.referencedOf sheetA pA1 :=
  (c8_autovivification demoParse 100 [(pA1, freshCell)] pA1 "=B1" '=' ['B', '1']
     (by decide) (by decide) (by decide)).1 sheetA (by decide) pB1 (by decide) (by decide)

/-! ## C4: graph symmetry -/

theorem referencedOf_eq {σ : Sheet} {a : Position} {ca : Cell} (h : σ.GetCell a = some ca) :
    σ.referencedOf a = ca.referenced := by
  unfold Sheet.referencedOf
  rw [h]
  rfl

theorem referringOf_eq {σ : Sheet} {a : Position} {ca : Cell} (h : σ.GetCell a = some ca) :
    σ.referringOf a = ca.referring := by
  unfold Sheet.referringOf
  rw [h]
  rfl

theorem referencedOf_absent {σ : Sheet} {a : Position} (h : σ.GetCell a = none) :
    σ.referencedOf a = [] := by
  unfold Sheet.referencedOf
  rw [h]
  rfl

theorem referringOf_absent {σ : Sheet} {a : Position} (h : σ.GetCell a = none) :
    σ.referringOf a = [] := by
  unfold Sheet.referringOf
  rw [h]
  rfl

/-- After a successful `EraseEdges`, symmetry and closedness persist, the
cell's referenced set is empty, and the cell table's domain is unchanged. -/
theorem erase_sym_closed {fuel : Nat} {σ σ1 : Sheet} {p : Position}
    (hSym : SymSheet σ) (hCl : ClosedSheet σ)
    (hE : Cell.EraseEdges fuel σ p = .ok σ1) :
    SymSheet σ1 ∧ ClosedSheet σ1 ∧ σ1.referencedOf p = [] ∧
    (σ1.GetCell p).isSome = true ∧
    (∀ q, (σ1.GetCell q).isSome = (σ.GetCell q).isSome) := by
  obtain ⟨c0, σcc, hg0, hcc, hdom, himpl, hcach, hrefd, hrefdne, hrefr⟩ := eraseEdges_obs hE
  have hpres : (σ1.GetCell p).isSome = true := by
    rw [hdom p, hg0]
    rfl
  refine ⟨?_, ?_, hrefd, hpres, hdom⟩
  · intro a b ha hb
    have ha' : (σ.GetCell a).isSome = true := by rw [← hdom a]; exact ha
    have hb' : (σ.GetCell b).isSome = true := by rw [← hdom b]; exact hb
    rw [hrefr b]
    by_cases hap : a = p
    · subst hap
      rw [hrefd]
      by_cases hbp : b ∈ σ.referencedOf a
      · rw [if_pos hbp]
        constructor
        · intro hmem
          exact absurd hmem (List.not_mem_nil b)
        · intro hmem
          exact absurd (erasePos_mem.mp hmem).2 (fun hh => hh rfl)
      · rw [if_neg hbp]
        constructor
        · intro hmem
          exact absurd hmem (List.not_mem_nil b)
        · intro hmem
          exact absurd ((hSym a b ha' hb').mpr hmem) hbp
    · rw [hrefdne a hap]
      have hmemfix : ∀ l : List Position, a ∈ erasePos p l ↔ a ∈ l := by
        intro l
        rw [erasePos_mem]
        exact ⟨fun hh => hh.1, fun hh => ⟨hh, hap⟩⟩
      by_cases hbp : b ∈ σ.referencedOf p
      · rw [if_pos hbp, hmemfix]
        exact hSym a b ha' hb'
      · rw [if_neg hbp]
        exact hSym a b ha' hb'
  · intro a
    constructor
    · intro q hq
      by_cases hap : a = p
      · subst hap
        rw [hrefd] at hq
        exact absurd hq (List.not_mem_nil q)
      · rw [hrefdne a hap] at hq
        rw [hdom q]
        exact (hCl a).1 q hq
    · intro q hq
      rw [hrefr a] at hq
      rw [hdom q]
      by_cases hbp : a ∈ σ.referencedOf p
      · rw [if_pos hbp] at hq
        exact (hCl a).2 q (erasePos_mem.mp hq).1
      · rw [if_neg hbp] at hq
        exact (hCl a).2 q hq

theorem addEdges_referencedOf_ne {σ1 : Sheet} {p : Position} {cp1 : Cell}
    {refs : List Position} (hp : σ1.GetCell p = some cp1) (hnp : p ∉ refs)
    (q : Position) (hq : q ≠ p) :
    (Cell.AddEdges σ1 p refs).referencedOf q = σ1.referencedOf q := by
  unfold Sheet.referencedOf
  rw [addEdges_getCell refs σ1 cp1 hp hnp q, if_neg hq]
  cases hgq : σ1.GetCell q with
  | some c => by_cases hmem : q ∈ refs <;> simp [hmem]
  | none => by_cases hmem : q ∈ refs <;> simp [hmem]

theorem addEdges_referencedOf_self {σ1 : Sheet} {p : Position} {cp1 : Cell}
    {refs : List Position} (hp : σ1.GetCell p = some cp1) (hnp : p ∉ refs) :
    (Cell.AddEdges σ1 p refs).referencedOf p = addAll refs cp1.referenced := by
  unfold Sheet.referencedOf
  rw [addEdges_getCell refs σ1 cp1 hp hnp p, if_pos rfl]
  rfl

theorem addEdges_referringOf_self {σ1 : Sheet} {p : Position} {cp1 : Cell}
    {refs : List Position} (hp : σ1.GetCell p = some cp1) (hnp : p ∉ refs) :
    (Cell.AddEdges σ1 p refs).referringOf p = cp1.referring := by
  unfold Sheet.referringOf
  rw [addEdges_getCell refs σ1 cp1 hp hnp p, if_pos rfl]
  rfl

theorem addEdges_referringOf_ne {σ1 : Sheet} {p : Position} {cp1 : Cell}
    {refs : List Position} (hp : σ1.GetCell p = some cp1) (hnp : p ∉ refs)
    (q : Position) (hq : q ≠ p) :
    (Cell.AddEdges σ1 p refs).referringOf q =
      if q ∈ refs then insertPos p (σ1.referringOf q) else σ1.referringOf q := by
  unfold Sheet.referringOf
  rw [addEdges_getCell refs σ1 cp1 hp hnp q, if_neg hq]
  cases hgq : σ1.GetCell q with
  | some c => by_cases hmem : q ∈ refs <;> simp [hmem]
  | none => by_cases hmem : q ∈ refs <;> simp [hmem, insertPos]

theorem addEdges_isSome {σ1 : Sheet} {p : Position} {cp1 : Cell}
    {refs : List Position} (hp : σ1.GetCell p = some cp1) (hnp : p ∉ refs)
    (q : Position) :
    (((Cell.AddEdges σ1 p refs).GetCell q).isSome = true) ↔
      ((σ1.GetCell q).isSome = true ∨ q ∈ refs) := by
  rw [addEdges_getCell refs σ1 cp1 hp hnp q]
  by_cases hq : q = p
  · subst hq
    rw [if_pos rfl]
    simp [hp]
  · rw [if_neg hq]
    cases hgq : σ1.GetCell q with
    | some c => by_cases hmem : q ∈ refs <;> simp [hmem]
    | none => by_cases hmem : q ∈ refs <;> simp [hmem]

/-- `Cell::AddEdges` preserves graph symmetry and closedness whenever the
setting cell exists and is not among the new references. -/
theorem addEdges_sym_closed {σ1 : Sheet} {p : Position} {cp1 : Cell}
    {refs : List Position} (hp : σ1.GetCell p = some cp1) (hnp : p ∉ refs)
    (hSym : SymSheet σ1) (hCl : ClosedSheet σ1) :
    SymSheet (Cell.AddEdges σ1 p refs) ∧ ClosedSheet (Cell.AddEdges σ1 p refs) := by
  have hppres : (σ1.GetCell p).isSome = true := by rw [hp]; rfl
  have habsent_refd : ∀ a b, σ1.GetCell a = none → b ∉ σ1.referencedOf a := by
    intro a b ha
    rw [referencedOf_absent ha]
    exact List.not_mem_nil b
  have habsent_refr : ∀ a b, σ1.GetCell a = none → b ∉ σ1.referringOf a := by
    intro a b ha
    rw [referringOf_absent ha]
    exact List.not_mem_nil b
  have hclosed_refd : ∀ a b, σ1.GetCell b = none → b ∉ σ1.referencedOf a := by
    intro a b hb hmem
    have := (hCl a).1 b hmem
    rw [hb] at this
    exact absurd this (by simp)
  have hclosed_refr : ∀ a b, σ1.GetCell b = none → b ∉ σ1.referringOf a := by
    intro a b hb hmem
    have := (hCl a).2 b hmem
    rw [hb] at this
    exact absurd this (by simp)
  constructor
  · intro a b ha hb
    by_cases hap : a = p
    · rw [hap]
      rw [addEdges_referencedOf_self hp hnp, addAll_mem, ← referencedOf_eq hp]
      by_cases hbp : b = p
      · rw [hbp]
        rw [addEdges_referringOf_self hp hnp, ← referringOf_eq hp]
        constructor
        · rintro (hmem | hmem)
          · exact absurd hmem hnp
          · exact (hSym p p hppres hppres).mp hmem
        · intro hmem
          exact Or.inr ((hSym p p hppres hppres).mpr hmem)
      · rw [addEdges_referringOf_ne hp hnp b hbp]
        by_cases hbr : b ∈ refs
        · rw [if_pos hbr]
          constructor
          · intro _
            exact insertPos_mem.mpr (Or.inl rfl)
          · intro _
            exact Or.inl hbr
        · rw [if_neg hbr]
          cases hgb : σ1.GetCell b with
          | none =>
            constructor
            · rintro (hmem | hmem)
              · exact absurd hmem hbr
              · exact absurd hmem (hclosed_refd p b hgb)
            · intro hmem
              exact absurd hmem (habsent_refr b p hgb)
          | some cb =>
            have hb1 : (σ1.GetCell b).isSome = true := by rw [hgb]; rfl
            constructor
            · rintro (hmem | hmem)
              · exact absurd hmem hbr
              · exact (hSym p b hppres hb1).mp hmem
            · intro hmem
              exact Or.inr ((hSym p b hppres hb1).mpr hmem)
    · rw [addEdges_referencedOf_ne hp hnp a hap]
      by_cases hbp : b = p
      · rw [hbp]
        rw [addEdges_referringOf_self hp hnp, ← referringOf_eq hp]
        cases hga : σ1.GetCell a with
        | none =>
          constructor
          · intro hmem
            exact absurd hmem (habsent_refd a p hga)
          · intro hmem
            exact absurd hmem (hclosed_refr p a hga)
        | some ca =>
          have ha1 : (σ1.GetCell a).isSome = true := by rw [hga]; rfl
          exact hSym a p ha1 hppres
      · rw [addEdges_referringOf_ne hp hnp b hbp]
        have hfix : ∀ l : List Position, a ∈ insertPos p l ↔ a ∈ l := by
          intro l
          rw [insertPos_mem]
          constructor
          · rintro (rfl | hmem)
            · exact absurd rfl hap
            · exact hmem
          · exact Or.inr
        have hiff : (a ∈ if b ∈ refs then insertPos p (σ1.referringOf b)
            else σ1.referringOf b) ↔ a ∈ σ1.referringOf b := by
          by_cases hbr : b ∈ refs
          · rw [if_pos hbr, hfix]
          · rw [if_neg hbr]
        rw [hiff]
        cases hga : σ1.GetCell a with
        | none =>
          constructor
          · intro hmem
            exact absurd hmem (habsent_refd a b hga)
          · intro hmem
            exact absurd hmem (hclosed_refr b a hga)
        | some ca =>
          have ha1 : (σ1.GetCell a).isSome = true := by rw [hga]; rfl
          cases hgb : σ1.GetCell b with
          | none =>
            constructor
            · intro hmem
              exact absurd hmem (hclosed_refd a b hgb)
            · intro hmem
              exact absurd hmem (habsent_refr b a hgb)
          | some cb =>
            have hb1 : (σ1.GetCell b).isSome = true := by rw [hgb]; rfl
            exact hSym a b ha1 hb1
  · intro a
    constructor
    · intro q hq
      by_cases hap : a = p
      · rw [hap] at hq
        rw [addEdges_referencedOf_self hp hnp, addAll_mem] at hq
        rcases hq with hq | hq
        · exact (addEdges_isSome hp hnp q).mpr (Or.inr hq)
        · refine (addEdges_isSome hp hnp q).mpr (Or.inl ?_)
          exact (hCl p).1 q (by rw [referencedOf_eq hp]; exact hq)
      · rw [addEdges_referencedOf_ne hp hnp a hap] at hq
        exact (addEdges_isSome hp hnp q).mpr (Or.inl ((hCl a).1 q hq))
    · intro q hq
      by_cases hap : a = p
      · rw [hap] at hq
        rw [addEdges_referringOf_self hp hnp, ← referringOf_eq hp] at hq
        exact (addEdges_isSome hp hnp q).mpr (Or.inl ((hCl p).2 q hq))
      · rw [addEdges_referringOf_ne hp hnp a hap] at hq
        by_cases har : a ∈ refs
        · rw [if_pos har] at hq
          rcases insertPos_mem.mp hq with rfl | hq
          · exact (addEdges_isSome hp hnp q).mpr (Or.inl hppres)
          · exact (addEdges_isSome hp hnp q).mpr (Or.inl ((hCl a).2 q hq))
        · rw [if_neg har] at hq
          exact (addEdges_isSome hp hnp q).mpr (Or.inl ((hCl a).2 q hq))

/-- Replacing only the content object of an existing cell changes no edge
set and no domain, so symmetry and closedness carry over. -/
theorem update_impl_sym_closed {σx : Sheet} {p : Position} {c : Cell} (i : Option Impl)
    (hg : σx.GetCell p = some c)
    (hSym : SymSheet σx) (hCl : ClosedSheet σx) :
    SymSheet (σx.update p { c with impl := i }) ∧
    ClosedSheet (σx.update p { c with impl := i }) := by
  have hrefd : ∀ q, (σx.update p { c with impl := i }).referencedOf q = σx.referencedOf q := by
    intro q
    by_cases hq : q = p
    · rw [hq, referencedOf_eq (Sheet.getCell_update_self hg _), referencedOf_eq hg]
    · unfold Sheet.referencedOf
      rw [Sheet.getCell_update_ne hq]
  have hrefr : ∀ q, (σx.update p { c with impl := i }).referringOf q = σx.referringOf q := by
    intro q
    by_cases hq : q = p
    · rw [hq, referringOf_eq (Sheet.getCell_update_self hg _), referringOf_eq hg]
    · unfold Sheet.referringOf
      rw [Sheet.getCell_update_ne hq]
  have hdom : ∀ q, ((σx.update p { c with impl := i }).GetCell q).isSome
      = (σx.GetCell q).isSome :=
    fun q => Sheet.isSome_getCell_update σx p q _
  constructor
  · intro a b ha hb
    rw [hrefd a, hrefr b]
    exact hSym a b (by rw [← hdom a]; exact ha) (by rw [← hdom b]; exact hb)
  · intro a
    constructor
    · intro q hq
      rw [hrefd a] at hq
      rw [hdom q]
      exact (hCl a).1 q hq
    · intro q hq
      rw [hrefr a] at hq
      rw [hdom q]
      exact (hCl a).2 q hq

/-- Constructing a fresh (never-`Set`) cell at an absent position keeps
symmetry and closedness: its edge sets are empty and, the sheet being
closed, no existing cell mentions the new position. -/
theorem cons_fresh_sym_closed {σ : Sheet} {p : Position} (hnone : σ.GetCell p = none)
    (hSym : SymSheet σ) (hCl : ClosedSheet σ) :
    SymSheet ((p, freshCell) :: σ) ∧ ClosedSheet ((p, freshCell) :: σ) := by
  have hget : ∀ q, Sheet.GetCell ((p, freshCell) :: σ) q =
      if p = q then some freshCell else σ.GetCell q := fun _ => rfl
  have hrefd : ∀ q, Sheet.referencedOf ((p, freshCell) :: σ) q =
      if p = q then [] else σ.referencedOf q := by
    intro q
    unfold Sheet.referencedOf
    rw [hget q]
    by_cases hq : p = q
    · rw [if_pos hq, if_pos hq]
      rfl
    · rw [if_neg hq, if_neg hq]
  have hrefr : ∀ q, Sheet.referringOf ((p, freshCell) :: σ) q =
      if p = q then [] else σ.referringOf q := by
    intro q
    unfold Sheet.referringOf
    rw [hget q]
    by_cases hq : p = q
    · rw [if_pos hq, if_pos hq]
      rfl
    · rw [if_neg hq, if_neg hq]
  have hedge_no_p : ∀ a, p ∉ σ.referencedOf a ∧ p ∉ σ.referringOf a := by
    intro a
    constructor
    · intro hmem
      have := (hCl a).1 p hmem
      rw [hnone] at this
      exact absurd this (by simp)
    · intro hmem
      have := (hCl a).2 p hmem
      rw [hnone] at this
      exact absurd this (by simp)
  constructor
  · intro a b ha hb
    rw [hrefd a, hrefr b]
    by_cases hap : p = a
    · rw [if_pos hap]
      by_cases hbp : p = b
      · rw [if_pos hbp]
        simp
      · rw [if_neg hbp]
        rw [← hap]
        constructor
        · intro hmem
          exact absurd hmem (List.not_mem_nil b)
        · intro hmem
          exact absurd hmem (hedge_no_p b).2
    · rw [if_neg hap]
      by_cases hbp : p = b
      · rw [if_pos hbp]
        rw [← hbp]
        constructor
        · intro hmem
          exact absurd hmem (hedge_no_p a).1
        · intro hmem
          exact absurd hmem (List.not_mem_nil a)
      · rw [if_neg hbp]
        have ha' : (σ.GetCell a).isSome = true := by
          rw [hget a, if_neg hap] at ha
          exact ha
        have hb' : (σ.GetCell b).isSome = true := by
          rw [hget b, if_neg hbp] at hb
          exact hb
        exact hSym a b ha' hb'
  · intro a
    constructor
    · intro q hq
      rw [hrefd a] at hq
      by_cases hap : p = a
      · rw [if_pos hap] at hq
        exact absurd hq (List.not_mem_nil q)
      · rw [if_neg hap] at hq
        rw [hget q]
        by_cases hpq : p = q
        · rw [if_pos hpq]
          rfl
        · rw [if_neg hpq]
          exact (hCl a).1 q hq
    · intro q hq
      rw [hrefr a] at hq
      by_cases hap : p = a
      · rw [if_pos hap] at hq
        exact absurd hq (List.not_mem_nil q)
      · rw [if_neg hap] at hq
        rw [hget q]
        by_cases hpq : p = q
        · rw [if_pos hpq]
          rfl
        · rw [if_neg hpq]
          exact (hCl a).2 q hq

/-- `Cell::Set` preserves graph symmetry and closedness whenever it
completes. -/
theorem cellSet_sym_closed (parse : String → List Position × String) (fuel : Nat)
    {σ σ' : Sheet} {p : Position} {t : String}
    (hSym : SymSheet σ) (hCl : ClosedSheet σ)
    (h : Cell.Set parse fuel σ p t = .ok σ') :
    SymSheet σ' ∧ ClosedSheet σ' := by
  obtain ⟨σ1, hE, hbr⟩ := cellSet_ok_inv h
  obtain ⟨hSym1, hCl1, hrefd1, hpres1, hdom1⟩ := erase_sym_closed hSym hCl hE
  rcases hbr with ⟨_, hcommit⟩ | ⟨ch, cs, ht, hf, ⟨vis, hchk⟩, hcommit⟩ | ⟨_, _, _, _, hcommit⟩
  · obtain ⟨cb, hgb, rfl⟩ := Cell.commitImpl_ok hcommit
    exact update_impl_sym_closed _ hgb hSym1 hCl1
  · obtain ⟨cb, hgb, rfl⟩ := Cell.commitImpl_ok hcommit
    obtain ⟨cp1, hp1⟩ := Option.isSome_iff_exists.mp hpres1
    have hnp : p ∉ (parse (String.mk cs)).1 :=
      chk_ok_not_mem hchk (List.not_mem_nil p)
    obtain ⟨hSym3, hCl3⟩ := addEdges_sym_closed hp1 hnp hSym1 hCl1
    exact update_impl_sym_closed _ hgb hSym3 hCl3
  · obtain ⟨cb, hgb, rfl⟩ := Cell.commitImpl_ok hcommit
    exact update_impl_sym_closed _ hgb hSym1 hCl1

/-- C4: graph symmetry — after every completed `Set` call, for every pair
of cells (A, B), B is in A's referenced set iff A is in B's referring set;
the invariant, together with edge-closedness, is preserved from any state
satisfying it, so it holds for arbitrarily long reference chains. -/
theorem c4_symmetry_preserved (parse : String → List Position × String) (fuel : Nat)
    {σ σ' : Sheet} {p : Position} {t : String}
    (hSym : SymSheet σ) (hCl : ClosedSheet σ)
    (h : Sheet.SetCell parse fuel σ p t = .ok σ') :
    SymSheet σ' ∧ ClosedSheet σ' := by
  unfold Sheet.SetCell at h
  by_cases hpres : (σ.GetCell p).isSome = true
  · rw [if_pos hpres] at h
    exact cellSet_sym_closed parse fuel hSym hCl h
  · rw [if_neg hpres] at h
    have hnone : σ.GetCell p = none :=
      Option.not_isSome_iff_eq_none.mp (by simpa using hpres)
    obtain ⟨hSym0, hCl0⟩ := cons_fresh_sym_closed hnone hSym hCl
    exact cellSet_sym_closed parse fuel hSym0 hCl0 h

/-- C4 witness: from the empty sheet (trivially symmetric and closed),
`SetCell(A1, "=B1")` completes and the resulting sheet is symmetric. -/
theorem c4_witness :
    Sheet.SetCell demoParse 100 [] pA1 "=B1" = .ok sheetA ∧ SymSheet sheetA := by
  have hSym : SymSheet ([] : Sheet) := by
    intro a b ha _
    simp [Sheet.GetCell] at ha
  have hCl : ClosedSheet ([] : Sheet) := by
    intro a
    constructor <;> intro q hq <;>
      simp [Sheet.referencedOf, Sheet.referringOf, Sheet.GetCell] at hq
  exact ⟨by decide,
    (@c4_symmetry_preserved demoParse 100 [] sheetA pA1 "=B1" hSym hCl (by decide)).1⟩
